import Mathlib

/-!
# Variable extraction from compiled templates (`common/facade/extra.go`)

A shallow embedding of the variable-reference extraction pass of
`forhsd/sqlbuilder`: the walker over `text/template/parse` trees
(`findVariables`, `findVariablesFromPipe`), the deduplicator (`unique`),
the collector (`ExtractVariables`) and the entry point
(`ExtraValFromTemplate`).

Modelling conventions.

* Go strings are `String`; Go compares strings byte-wise, which on UTF-8
  text is the code point order carried by `String`.
* A Go slice is a `List`.
* A pointer the source tests against `nil` (`Tree`, `ElseList`) is an
  `Option`; a pointer the source follows without a test (`Pipe`, `List`,
  `Root`) is the value it points to.
* The entries of a slice of generated message pointers (`[]*pb.MixField`,
  `[]*pb.OrderBy`) may be nil and are `Option`s: the generated getters
  accept a nil receiver, a direct field read (`o.Order`) does not.
* A run-time panic (indexing `Ident[0]` of an empty slice, reading a field
  through a nil pointer) is the result `none`; a returned Go `error` is
  `Except.error`.
* The template compiler of the Go standard library is not part of the
  repository: it is a parameter of `ExtraValFromTemplate`, and compiled
  templates are values of type `Template`.
-/

namespace Facade

/-! ## Data model: `text/template/parse` nodes -/

mutual
/-- The node kinds of `text/template/parse` (`parse.Node`). `IfNode`,
`RangeNode` and `WithNode` embed a `BranchNode`; their three fields are the
guard pipe, the body list and the else list (`nil` when absent). -/
inductive Node where
  | Text (text : String)
  | Action (pipe : PipeNode)
  | Bool (val : Bool)
  | Chain (node : Node) (field : List String)
  | Command (cmd : CommandNode)
  | Dot
  | Field (ident : List String)
  | Identifier (ident : String)
  | If (pipe : PipeNode) (list : List Node) (elseList : Option (List Node))
  | List (nodes : List Node)
  | Nil
  | Number (text : String)
  | Pipe (pipe : PipeNode)
  | Range (pipe : PipeNode) (list : List Node) (elseList : Option (List Node))
  | String (quoted : String) (text : String)
  | Template (name : String) (pipe : Option PipeNode)
  | Variable (ident : List String)
  | With (pipe : PipeNode) (list : List Node) (elseList : Option (List Node))
  | Comment (text : String)
  | Break
  | Continue
  | Branch (pipe : PipeNode) (list : List Node) (elseList : Option (List Node))
/-- A pipeline (`parse.PipeNode`): declared variables and commands. -/
inductive PipeNode where
  | mk (isAssign : Bool) (decl : List (List String)) (cmds : List CommandNode)
/-- A command (`parse.CommandNode`): its arguments in lexical order. -/
inductive CommandNode where
  | mk (args : List Node)
end

/-! ## The walker -/

mutual
/-- `findVariablesFromPipe` (extra.go 95-108): for each command, for each
argument, a field node contributes `Ident[0]` and a nested pipe is walked;
`none` is the index-out-of-range panic of `Ident[0]`. -/
def findVariablesFromPipe : PipeNode → Option (List String)
  | .mk _ _ cmds => findVariablesFromCmds cmds
/-- The loop `for _, cmd := range pipe.Cmds` of `findVariablesFromPipe`. -/
def findVariablesFromCmds : List CommandNode → Option (List String)
  | [] => some []
  | .mk args :: cmds =>
    match findVariablesFromArgs args with
    | none => none
    | some vs =>
      match findVariablesFromCmds cmds with
      | none => none
      | some ws => some (vs ++ ws)
/-- The loop `for _, arg := range cmd.Args` of `findVariablesFromPipe`. -/
def findVariablesFromArgs : List Node → Option (List String)
  | [] => some []
  | .Field ident :: args =>
    match ident with
    | [] => none
    | v :: _ =>
      match findVariablesFromArgs args with
      | none => none
      | some ws => some (v :: ws)
  | .Pipe p :: args =>
    match findVariablesFromPipe p with
    | none => none
    | some vs =>
      match findVariablesFromArgs args with
      | none => none
      | some ws => some (vs ++ ws)
  | _ :: args => findVariablesFromArgs args
end

mutual
/-- `findVariables` (extra.go 65-93): the type switch over the node kind.
Only the generic `BranchNode` case walks the body and else lists; the
`RangeNode`, `WithNode` and `IfNode` cases read the guard pipe alone. A kind
without a case leaves `vars` empty. -/
def findVariables : Node → Option (List String)
  | .Action pipe => findVariablesFromPipe pipe
  | .Branch pipe list elseList =>
    match findVariablesFromPipe pipe with
    | none => none
    | some vs =>
      match findVariablesNodes list with
      | none => none
      | some ws =>
        match findVariablesElse elseList with
        | none => none
        | some us => some (vs ++ ws ++ us)
  | .Range pipe _ _ => findVariablesFromPipe pipe
  | .With pipe _ _ => findVariablesFromPipe pipe
  | .If pipe _ _ => findVariablesFromPipe pipe
  | .Template name _ => some [name]
  | .Pipe pipe => findVariablesFromPipe pipe
  | _ => some []
/-- The loop `for _, node := range nodes \x7b vars = append(vars,
findVariables(node)...) \x7d`, used on `n.List.Nodes`, `n.ElseList.Nodes`
and `Tree.Root.Nodes`. -/
def findVariablesNodes : List Node → Option (List String)
  | [] => some []
  | n :: ns =>
    match findVariables n with
    | none => none
    | some vs =>
      match findVariablesNodes ns with
      | none => none
      | some ws => some (vs ++ ws)
/-- The guarded loop `if n.ElseList != nil \x7b ... \x7d` of the
`BranchNode` case: nothing is appended when the else list is absent. -/
def findVariablesElse : Option (List Node) → Option (List String)
  | none => some []
  | some el => findVariablesNodes el
end

/-! ## Deduplication, filtering, sorting -/

/-- The loop of `unique` (extra.go 113-118): `seen` is the key set of the
map, `result` the slice built so far. -/
def uniqueLoop : List String → List String → List String → List String
  | [], _, result => result
  | v :: vars, seen, result =>
    if v ∈ seen then uniqueLoop vars seen result
    else uniqueLoop vars (v :: seen) (result ++ [v])

/-- `unique` (extra.go 110-120). -/
def unique (vars : List String) : List String :=
  uniqueLoop vars [] []

/-- Modelled from the spec: `util.RemoveElements` is not among the sources;
the Filter step "removes any collected identifier that matches a sub-template
name", so the result is the identifier list minus the name set, in the
order of the identifier list. -/
def RemoveElements (vars : List String) (names : List String) : List String :=
  vars.filter (fun v => !decide (v ∈ names))

/-- `sort.Strings` of the Go standard library: the ascending rearrangement
of the slice. -/
def sortStrings (xs : List String) : List String :=
  xs.insertionSort (· ≤ ·)

/-! ## Compiled templates and the entry point -/

/-- A Go `error` value, by its message. -/
abbrev Error := String

/-- A `parse.Tree`, by the nodes of its root list (`Tree.Root.Nodes`). -/
structure Tree where
  Root : List Node

/-- One template of the enumeration `t.Templates()`: its name and its tree
(`nil` when it has none). -/
structure NamedTemplate where
  Name : String
  Tree : Option Tree

/-- A `template.Template`: its own name, its own tree, and the templates
associated with it in the order `t.Templates()` enumerates them (after a
successful parse the template itself is among them). -/
structure Template where
  Name : String
  Tree : Option Tree
  Templates : List NamedTemplate

/-- The body of the loop over `t.Templates()` (extra.go 56-60): a template
without a tree is skipped, otherwise its top-level nodes are walked. -/
def walkTemplate (tmpl : NamedTemplate) : Option (List String) :=
  match tmpl.Tree with
  | none => some []
  | some tree => findVariablesNodes tree.Root

/-- The loop `for _, tmpl := range t.Templates()` of `ExtractVariables`
(extra.go 55-61). -/
def walkTemplates : List NamedTemplate → Option (List String)
  | [] => some []
  | tmpl :: rest =>
    match walkTemplate tmpl with
    | none => none
    | some vs =>
      match walkTemplates rest with
      | none => none
      | some ws => some (vs ++ ws)

/-- `ExtractVariables` (extra.go 47-63). -/
def ExtractVariables (t : Template) : Option (List String) :=
  match t.Tree with
  | none => some []
  | some tree =>
    match findVariablesNodes tree.Root with
    | none => none
    | some vs =>
      match walkTemplates t.Templates with
      | none => none
      | some ws => some (unique (vs ++ ws))

/-- Modelled from the spec: `AnalyzeTmplByTemplate` is not among the
sources; the Name Set is "the set of every name under which a template is
registered (the root template's own name plus every nested defined template
name)", and the collector is "pure, total, no failure mode". -/
def AnalyzeTmplByTemplate (t : Template) : Except Error (List String) :=
  .ok (t.Name :: t.Templates.map (·.Name))

/-- The template compiler of the Go standard library, as the entry point
uses it: from the name of the receiver and the template text, either a
syntax error or the root tree and the associated templates. -/
abbrev Compiler := String → String → Except Error (Option Tree × List NamedTemplate)

/-- `template.New(name).Funcs(InjectFunc()).Parse(text)`: the receiver keeps
its name and takes the tree and the association the compiler produced. -/
def Template.Parse (compile : Compiler) (name text : String) : Except Error Template :=
  match compile name text with
  | .error err => .error err
  | .ok (tree, tmpls) => .ok { Name := name, Tree := tree, Templates := tmpls }

/-- `ExtraValFromTemplate` (extra.go 25-45). The outer `Option` is `none`
when the walk panics; the `Except` is the returned `([]string, error)`. -/
def ExtraValFromTemplate (compile : Compiler) (tmplText : String) :
    Option (Except Error (List String)) :=
  match Template.Parse compile "temp" tmplText with
  | .error err => some (.error err)
  | .ok tmpl =>
    match AnalyzeTmplByTemplate tmpl with
    | .error err => some (.error err)
    | .ok tmplNames =>
      match ExtractVariables tmpl with
      | none => none
      | some vars => some (.ok (sortStrings (RemoveElements vars tmplNames)))

/-! ## Every node of a template -/

mutual
/-- A node together with every node below it. -/
def subnodes : Node → List Node
  | .Action p => .Action p :: subnodesOfPipe p
  | .Chain n f => .Chain n f :: subnodes n
  | .Command c => .Command c :: subnodesOfCmd c
  | .If p l e => .If p l e :: (subnodesOfPipe p ++ subnodesOfNodes l ++ subnodesOfElse e)
  | .List ns => .List ns :: subnodesOfNodes ns
  | .Pipe p => .Pipe p :: subnodesOfPipe p
  | .Range p l e => .Range p l e :: (subnodesOfPipe p ++ subnodesOfNodes l ++ subnodesOfElse e)
  | .Template s p => .Template s p :: subnodesOfOptPipe p
  | .With p l e => .With p l e :: (subnodesOfPipe p ++ subnodesOfNodes l ++ subnodesOfElse e)
  | .Branch p l e => .Branch p l e :: (subnodesOfPipe p ++ subnodesOfNodes l ++ subnodesOfElse e)
  | n => [n]
/-- Every node of a pipeline: the arguments of its commands and what is
below them. -/
def subnodesOfPipe : PipeNode → List Node
  | .mk _ _ cmds => subnodesOfCmds cmds
/-- Every node of the argument pipeline of an inclusion, when it has one. -/
def subnodesOfOptPipe : Option PipeNode → List Node
  | none => []
  | some p => subnodesOfPipe p
/-- Every node of a command. -/
def subnodesOfCmd : CommandNode → List Node
  | .mk args => subnodesOfNodes args
/-- Every node of a list of commands. -/
def subnodesOfCmds : List CommandNode → List Node
  | [] => []
  | c :: cs => subnodesOfCmd c ++ subnodesOfCmds cs
/-- Every node of a list of nodes. -/
def subnodesOfNodes : List Node → List Node
  | [] => []
  | n :: ns => subnodes n ++ subnodesOfNodes ns
/-- Every node of an else list, when there is one. -/
def subnodesOfElse : Option (List Node) → List Node
  | none => []
  | some el => subnodesOfNodes el
end

/-- The identifier path of a field node (`.A.B` has path `["A", "B"]`). -/
def fieldIdent : Node → Option (List String)
  | .Field ident => some ident
  | _ => none

/-- The name a template-inclusion node refers to. -/
def inclusionName : Node → Option String
  | .Template name _ => some name
  | _ => none

/-- The node kinds that have a case in the type switch of `findVariables`:
Action, Branch, Range, With, If, Template, Pipe. -/
def hasCase : Node → Bool
  | .Action _ => true
  | .Branch _ _ _ => true
  | .Range _ _ _ => true
  | .With _ _ _ => true
  | .If _ _ _ => true
  | .Template _ _ => true
  | .Pipe _ => true
  | _ => false

/-- The top-level nodes of the templates enumerated by `t.Templates()`. -/
def templateNodes (tmpls : List NamedTemplate) : List Node :=
  tmpls.flatMap (fun tmpl =>
    match tmpl.Tree with
    | none => []
    | some tree => tree.Root)

/-- The top-level nodes of the root tree and of every associated template. -/
def Template.topNodes (t : Template) : List Node :=
  (match t.Tree with
   | none => []
   | some tree => tree.Root) ++ templateNodes t.Templates

/-- Every node of every tree of the template. -/
def Template.allNodes (t : Template) : List Node :=
  subnodesOfNodes t.topNodes

/-- The invariant of compiled trees the walker relies on: every field node
carries at least one identifier (the compiler builds a field node from a
token `.A.B...`), so `Ident[0]` exists. -/
def Template.WellFormed (t : Template) : Prop :=
  ∀ n ∈ t.allNodes, fieldIdent n ≠ some []

instance (t : Template) : Decidable t.WellFormed := by
  unfold Template.WellFormed
  infer_instance

/-- The same invariant for one pipeline. -/
def PipeNode.WellFormed (p : PipeNode) : Prop :=
  ∀ n ∈ subnodesOfPipe p, fieldIdent n ≠ some []

instance (p : PipeNode) : Decidable p.WellFormed := by
  unfold PipeNode.WellFormed
  infer_instance

/-- The template has no field reference anywhere in its trees. -/
def Template.NoFieldReference (t : Template) : Prop :=
  ∀ n ∈ t.allNodes, fieldIdent n = none

instance (t : Template) : Decidable t.NoFieldReference := by
  unfold Template.NoFieldReference
  infer_instance

/-- The template has no named sub-template definition: `t.Templates()`
enumerates nothing but the template itself. -/
def Template.NoSubTemplate (t : Template) : Prop :=
  ∀ tmpl ∈ t.Templates, tmpl.Name = t.Name

instance (t : Template) : Decidable t.NoSubTemplate := by
  unfold Template.NoSubTemplate
  infer_instance

/-- Every template inclusion in the trees of the template refers to a name
under which a template is registered. -/
def Template.InclusionsRegistered (t : Template) : Prop :=
  ∀ s ∈ t.allNodes.filterMap inclusionName, s ∈ t.Name :: t.Templates.map (·.Name)

instance (t : Template) : Decidable t.InclusionsRegistered := by
  unfold Template.InclusionsRegistered
  infer_instance

/-! ## Reference definitions from the specification -/

mutual
/-- The Walker contract for a Pipe (spec 4.3): "for each Command, for each
Argument: if the Argument is a field reference, append its root path segment;
if the Argument is itself a nested Pipe, recurse into it". -/
def specPipe : PipeNode → List String
  | .mk _ _ cmds => specCmds cmds
/-- The contract "for each Command". -/
def specCmds : List CommandNode → List String
  | [] => []
  | .mk args :: cmds => specArgs args ++ specCmds cmds
/-- The contract "for each Argument". -/
def specArgs : List Node → List String
  | [] => []
  | arg :: args => specArg arg ++ specArgs args
/-- What one Argument contributes: the first path segment of a field
reference, the identifiers of a nested Pipe, nothing for any other kind. -/
def specArg : Node → List String
  | .Field ident => ident.take 1
  | .Pipe p => specPipe p
  | _ => []
end

/-- The Filter and Deduplicator contract (spec 4.4), one identifier at a
time: an identifier is kept when it is "(a) not present in the Name Set and
(b) not a repeat of an identifier already kept, preserving first-seen
order". -/
def specFilterDedupLoop (names : List String) : List String → List String → List String
  | [], kept => kept
  | v :: vars, kept =>
    if v ∉ names ∧ v ∉ kept then specFilterDedupLoop names vars (kept ++ [v])
    else specFilterDedupLoop names vars kept

/-- The Filter and Deduplicator contract (spec 4.4). -/
def specFilterDedup (vars names : List String) : List String :=
  specFilterDedupLoop names vars []

/-! ## Auxiliary functions used in the proofs -/

/-- The first occurrences in `vars` of the strings that are not in `seen`,
in order: what the loop of `unique` appends to `result`. -/
def firstOcc : List String → List String → List String
  | _, [] => []
  | seen, v :: vars =>
    if v ∈ seen then firstOcc seen vars else v :: firstOcc (v :: seen) vars

/-- Concatenation of the outcomes of a sequence of walks: a panic (`none`)
in one of them is a panic of the whole. -/
def concatOpt : List (Option (List String)) → Option (List String)
  | [] => some []
  | none :: _ => none
  | some vs :: rest =>
    match concatOpt rest with
    | none => none
    | some ws => some (vs ++ ws)

/-! ## The sample templates of the specification -/

/-- The action `\x7b\x7b.name\x7d\x7d`: one command whose only argument
is the field `.name`. -/
def fieldAction (name : String) : Node :=
  .Action (.mk false [] [.mk [.Field [name]]])

/-- Source text `\x7b\x7b.A\x7d\x7d\x7b\x7b.B\x7d\x7d\x7b\x7b.A\x7d\x7d`. -/
def srcABA : String := "\x7b\x7b.A\x7d\x7d\x7b\x7b.B\x7d\x7d\x7b\x7b.A\x7d\x7d"

/-- Source text `\x7b\x7bif .Cond\x7d\x7d\x7b\x7b.Y\x7d\x7d\x7b\x7bend\x7d\x7d`. -/
def srcIf : String := "\x7b\x7bif .Cond\x7d\x7d\x7b\x7b.Y\x7d\x7d\x7b\x7bend\x7d\x7d"

/-- Source text
`\x7b\x7bdefine "sub"\x7d\x7d\x7b\x7b.X\x7d\x7d\x7b\x7bend\x7d\x7d\x7b\x7btemplate "sub"\x7d\x7d`. -/
def srcDefine : String :=
  "\x7b\x7bdefine \"sub\"\x7d\x7d\x7b\x7b.X\x7d\x7d\x7b\x7bend\x7d\x7d\x7b\x7btemplate \"sub\"\x7d\x7d"

/-- Source text `\x7b\x7btemplate "foo"\x7d\x7d`: an inclusion of a
template that is defined nowhere (the compiler accepts it; only execution
would report it). -/
def srcUndefined : String := "\x7b\x7btemplate \"foo\"\x7d\x7d"

/-- Source text `select 1 \x7b\x7btemplate "temp"\x7d\x7d`: literal text and an
inclusion of the template itself. -/
def srcSelf : String := "select 1 \x7b\x7btemplate \"temp\"\x7d\x7d"

/-- Root tree of `srcSelf`. -/
def treeSelf : Tree := ⟨[.Text "select 1 ", .Template "temp" none]⟩

/-- The compiled template of `srcSelf`. -/
def tmplSelf : Template := ⟨"temp", some treeSelf, [⟨"temp", some treeSelf⟩]⟩

/-- Root tree of `srcABA`. -/
def treeABA : Tree := ⟨[fieldAction "A", fieldAction "B", fieldAction "A"]⟩

/-- Root tree of `srcIf`. -/
def treeIf : Tree :=
  ⟨[.If (.mk false [] [.mk [.Field ["Cond"]]]) [fieldAction "Y"] none]⟩

/-- Root tree of `srcDefine`: the definition leaves no node behind. -/
def treeDefine : Tree := ⟨[.Template "sub" none]⟩

/-- Tree of the template `sub` defined in `srcDefine`. -/
def treeSub : Tree := ⟨[fieldAction "X"]⟩

/-- Root tree of `srcUndefined`. -/
def treeUndefined : Tree := ⟨[.Template "foo" none]⟩

/-- The compiled template of `srcABA`, named `temp` by the entry point. -/
def tmplABA : Template := ⟨"temp", some treeABA, [⟨"temp", some treeABA⟩]⟩

/-- The compiled template of `srcIf`. -/
def tmplIf : Template := ⟨"temp", some treeIf, [⟨"temp", some treeIf⟩]⟩

/-- The compiled template of `srcDefine`. -/
def tmplDefine : Template :=
  ⟨"temp", some treeDefine, [⟨"sub", some treeSub⟩, ⟨"temp", some treeDefine⟩]⟩

/-- The compiled template of `srcUndefined`. -/
def tmplUndefined : Template := ⟨"temp", some treeUndefined, [⟨"temp", some treeUndefined⟩]⟩

/-- Source text
`\x7b\x7bdefine "sub"\x7d\x7d\x7b\x7b.X\x7d\x7d\x7b\x7bend\x7d\x7d\x7b\x7btemplate "sub" .Arg\x7d\x7d`:
the inclusion passes the field `.Arg` to `sub`. -/
def srcInclusionArg : String :=
  "\x7b\x7bdefine \"sub\"\x7d\x7d\x7b\x7b.X\x7d\x7d\x7b\x7bend\x7d\x7d\x7b\x7btemplate \"sub\" .Arg\x7d\x7d"

/-- Root tree of `srcInclusionArg`. -/
def treeInclusionArg : Tree :=
  ⟨[.Template "sub" (some (.mk false [] [.mk [.Field ["Arg"]]]))]⟩

/-- The compiled template of `srcInclusionArg`. -/
def tmplInclusionArg : Template :=
  ⟨"temp", some treeInclusionArg, [⟨"sub", some treeSub⟩, ⟨"temp", some treeInclusionArg⟩]⟩

/-- Source text `\x7b\x7b.temp\x7d\x7d`: a field whose root identifier is the
name the entry point gives to the root template. -/
def srcTemp : String := "\x7b\x7b.temp\x7d\x7d"

/-- Root tree of `srcTemp`. -/
def treeTemp : Tree := ⟨[fieldAction "temp"]⟩

/-- The compiled template of `srcTemp`. -/
def tmplTemp : Template := ⟨"temp", some treeTemp, [⟨"temp", some treeTemp⟩]⟩

/-- Source text `\x7b\x7b.A`: an action that is never closed, which the
compiler rejects. -/
def srcUnclosed : String := "\x7b\x7b.A"

/-- A template that has no tree of its own while a template with a tree is
associated with it (as after `template.New("x")` followed by a parse of
another name in the same set). -/
def tmplNoTree : Template := ⟨"x", none, [⟨"sub", some treeSub⟩]⟩

/-- The compiler on the sample texts: the trees `text/template` builds for
them, the receiver being among the associated templates. Any other text is
left out of this table and reported as an error. -/
def sampleCompiler : Compiler := fun name text =>
  if text = srcABA then .ok (some treeABA, [⟨name, some treeABA⟩])
  else if text = srcIf then .ok (some treeIf, [⟨name, some treeIf⟩])
  else if text = srcDefine then
    .ok (some treeDefine, [⟨"sub", some treeSub⟩, ⟨name, some treeDefine⟩])
  else if text = srcUndefined then
    .ok (some treeUndefined, [⟨name, some treeUndefined⟩])
  else if text = srcSelf then .ok (some treeSelf, [⟨name, some treeSelf⟩])
  else if text = srcInclusionArg then
    .ok (some treeInclusionArg, [⟨"sub", some treeSub⟩, ⟨name, some treeInclusionArg⟩])
  else if text = srcTemp then .ok (some treeTemp, [⟨name, some treeTemp⟩])
  else if text = srcUnclosed then .error "template: temp:1: unclosed action"
  else .error "template: not a sample text"

/-- The compiler on `srcDefine` with the associated templates enumerated in
the other order (`t.Templates()` ranges over a map). -/
def sampleCompilerSwapped : Compiler := fun name text =>
  if text = srcDefine then
    .ok (some treeDefine, [⟨name, some treeDefine⟩, ⟨"sub", some treeSub⟩])
  else sampleCompiler name text

/-! ## Dialect resolution -/

/-- Modelled from the spec: the generated type `pb.Driver` is not among the
sources; it is the "closed enumeration of driver identifiers" DORIS, MYSQL,
POSTGRES of spec 4.6, and `other` stands for every value outside these three
(the unset value included). -/
inductive Driver where
  | DRIVER_DORIS
  | DRIVER_MYSQL
  | DRIVER_POSTGRES
  | other (value : Int)
  deriving DecidableEq

/-- Modelled from the spec: the generated type `pb.BuilderRequest` is not
among the sources; `Dialect` reads its field `Driver` only. -/
structure BuilderRequest where
  Driver : Driver

/-- The dialect names of the external package `xorm.io/builder` that
`Dialect` passes on. -/
inductive XormDialect where
  | MYSQL
  | POSTGRES
  deriving DecidableEq

/-- A builder of `xorm.io/builder`, by the dialect it was created for: the
builder profile. -/
structure Builder where
  dialect : XormDialect
  deriving DecidableEq

/-- `xorm.Dialect(name)`: a fresh builder for the dialect. -/
def xormDialect (name : XormDialect) : Builder := ⟨name⟩

/-- `Dialect` (extra.go 154-166); `none` is the panic of the default
case. -/
def Dialect (req : BuilderRequest) : Option Builder :=
  match req.Driver with
  | .DRIVER_DORIS => some (xormDialect .MYSQL)
  | .DRIVER_MYSQL => some (xormDialect .MYSQL)
  | .DRIVER_POSTGRES => some (xormDialect .POSTGRES)
  | _ => none

/-! ## Alias extraction -/

/-- Modelled from the spec: the generated type `pb.Column` is not among the
sources; of a plain column only the alias is read. -/
structure Column where
  Alias : String

/-- Modelled from the spec: the generated type `pb.Expression`, by its
call-name. -/
structure Expression where
  CallAs : String

/-- Modelled from the spec: the generated type `pb.CaseWhen`, by its alias. -/
structure CaseWhen where
  Alias : String

/-- Modelled from the spec: the variants of the tagged union of a projection
entry, "Column, Expression, CaseWhen, each optionally carrying an
alias/call-name"; the payload of a variant may be absent (a nil message). -/
inductive isMixField_Mix where
  | MixField_Column (Column : Option Column)
  | MixField_Expression (Expression : Option Expression)
  | MixField_CaseWhen (CaseWhen : Option CaseWhen)

/-- Modelled from the spec: a projection entry `pb.MixField`; `Mix` is the
active variant, absent when none is set. -/
structure MixField where
  Mix : Option isMixField_Mix

/-- Modelled from the spec: an ORDER-BY entry `pb.OrderBy`: the projection it
depends on and the sort direction keyword. -/
structure OrderBy where
  Dependent : Option MixField
  Order : String

/-- Modelled from the spec: the generated getter `GetMix`, which like every
generated getter accepts a nil receiver. -/
def GetMix (x : Option MixField) : Option isMixField_Mix :=
  match x with
  | none => none
  | some m => m.Mix

/-- Modelled from the spec: the generated getter `GetColumn`: the payload
when the active variant is Column, nil otherwise. -/
def GetColumn (x : Option MixField) : Option Column :=
  match GetMix x with
  | some (.MixField_Column c) => c
  | _ => none

/-- Modelled from the spec: the generated getter `GetExpression`. -/
def GetExpression (x : Option MixField) : Option Expression :=
  match GetMix x with
  | some (.MixField_Expression e) => e
  | _ => none

/-- Modelled from the spec: the generated getter `GetCaseWhen`. -/
def GetCaseWhen (x : Option MixField) : Option CaseWhen :=
  match GetMix x with
  | some (.MixField_CaseWhen c) => c
  | _ => none

/-- Modelled from the spec: the generated getter `GetAlias` of a column: the
empty string on a nil receiver. -/
def Column.GetAlias (x : Option Column) : String :=
  match x with
  | none => ""
  | some c => c.Alias

/-- Modelled from the spec: the generated getter `GetCallAs` of an
expression. -/
def Expression.GetCallAs (x : Option Expression) : String :=
  match x with
  | none => ""
  | some e => e.CallAs

/-- Modelled from the spec: the generated getter `GetAlias` of a case-when
expression. -/
def CaseWhen.GetAlias (x : Option CaseWhen) : String :=
  match x with
  | none => ""
  | some c => c.Alias

/-- Modelled from the spec: the generated getter `GetDependent` of an
ORDER-BY entry, which like every generated getter accepts a nil receiver. -/
def GetDependent (o : Option OrderBy) : Option MixField :=
  match o with
  | none => none
  | some entry => entry.Dependent

/-- The type switch on `s.GetMix()` (extra.go 172-180, and again on
`dep.GetMix()` in 191-198): `as` stays the empty string when no case
applies. -/
def switchAlias (s : Option MixField) : String :=
  match GetMix s with
  | some (.MixField_Column _) => Column.GetAlias (GetColumn s)
  | some (.MixField_Expression _) => Expression.GetCallAs (GetExpression s)
  | some (.MixField_CaseWhen _) => CaseWhen.GetAlias (GetCaseWhen s)
  | none => ""

/-- The loop of `ExtractSelectAlias` (extra.go 171-182); `acc` is the
result slice built so far. -/
def ExtractSelectAliasLoop : List (Option MixField) → List String → List String
  | [], acc => acc
  | s :: sel, acc => ExtractSelectAliasLoop sel (acc ++ [switchAlias s])

/-- `ExtractSelectAlias` (extra.go 169-184). -/
def ExtractSelectAlias (sel : List (Option MixField)) : List String :=
  ExtractSelectAliasLoop sel []

/-- The loop of `ExtractOrderAlias` (extra.go 188-201); `acc` is the result
slice built so far. The dependent projection is read through the nil-safe
getter, the direction through the field `o.Order`: on a nil entry that read
panics (`none`). -/
def ExtractOrderAliasLoop : List (Option OrderBy) → List String → Option (List String)
  | [], acc => some acc
  | o :: order, acc =>
    match o with
    | none => none
    | some entry =>
      ExtractOrderAliasLoop order (acc ++ [switchAlias (GetDependent o) ++ " " ++ entry.Order])

/-- `ExtractOrderAlias` (extra.go 187-203). -/
def ExtractOrderAlias (order : List (Option OrderBy)) : Option (List String) :=
  ExtractOrderAliasLoop order []

/-! ## Lemmas on `unique` -/

theorem uniqueLoop_eq (vars seen result : List String) :
    uniqueLoop vars seen result = result ++ firstOcc seen vars := by
  induction vars generalizing seen result with
  | nil => simp [uniqueLoop, firstOcc]
  | cons v vars ih =>
    by_cases h : v ∈ seen
    · simp [uniqueLoop, firstOcc, h, ih]
    · simp [uniqueLoop, firstOcc, h, ih]

theorem unique_eq (vars : List String) : unique vars = firstOcc [] vars := by
  simp [unique, uniqueLoop_eq]

theorem firstOcc_congr (vars : List String) {s s' : List String}
    (h : ∀ x, x ∈ s ↔ x ∈ s') : firstOcc s vars = firstOcc s' vars := by
  induction vars generalizing s s' with
  | nil => rfl
  | cons v vars ih =>
    by_cases hv : v ∈ s
    · have hv' : v ∈ s' := (h v).1 hv
      simp [firstOcc, hv, hv', ih h]
    · have hv' : v ∉ s' := fun c => hv ((h v).2 c)
      have h2 : ∀ x, x ∈ v :: s ↔ x ∈ v :: s' := by
        intro x
        simp [h x]
      simp [firstOcc, hv, hv', ih h2]

theorem mem_firstOcc {seen vars : List String} {x : String} :
    x ∈ firstOcc seen vars ↔ x ∈ vars ∧ x ∉ seen := by
  induction vars generalizing seen with
  | nil => simp [firstOcc]
  | cons v vars ih =>
    by_cases hv : v ∈ seen
    · simp only [firstOcc, hv, if_true, ih, List.mem_cons]
      constructor
      · rintro ⟨h1, h2⟩
        exact ⟨Or.inr h1, h2⟩
      · rintro ⟨h1 | h1, h2⟩
        · exact absurd (h1 ▸ hv) h2
        · exact ⟨h1, h2⟩
    · simp only [firstOcc, hv, if_false, List.mem_cons, ih]
      constructor
      · rintro (h1 | ⟨h1, h2⟩)
        · exact ⟨Or.inl h1, h1 ▸ hv⟩
        · exact ⟨Or.inr h1, fun c => h2 (Or.inr c)⟩
      · rintro ⟨h1 | h1, h2⟩
        · exact Or.inl h1
        · by_cases hx : x = v
          · exact Or.inl hx
          · refine Or.inr ⟨h1, ?_⟩
            rintro (c | c)
            · exact hx c
            · exact h2 c

theorem nodup_firstOcc (seen vars : List String) : (firstOcc seen vars).Nodup := by
  induction vars generalizing seen with
  | nil => simp [firstOcc]
  | cons v vars ih =>
    by_cases hv : v ∈ seen
    · simp [firstOcc, hv, ih]
    · simp only [firstOcc, hv, if_false, List.nodup_cons]
      refine ⟨?_, ih _⟩
      intro c
      exact (mem_firstOcc.1 c).2 (List.mem_cons_self _ _)

theorem mem_unique {vars : List String} {x : String} : x ∈ unique vars ↔ x ∈ vars := by
  simp [unique_eq, mem_firstOcc]

theorem nodup_unique (vars : List String) : (unique vars).Nodup := by
  rw [unique_eq]
  exact nodup_firstOcc _ _

theorem filter_firstOcc (names seen vars : List String) :
    (firstOcc seen vars).filter (fun v => !decide (v ∈ names)) =
      firstOcc (names ++ seen) vars := by
  induction vars generalizing seen with
  | nil => simp [firstOcc]
  | cons v vars ih =>
    by_cases hs : v ∈ seen
    · simp [firstOcc, hs, ih]
    · by_cases hn : v ∈ names
      · have hc : ∀ x, x ∈ names ++ v :: seen ↔ x ∈ names ++ seen := by
          intro x
          simp only [List.mem_append, List.mem_cons]
          constructor
          · rintro (h | h | h)
            · exact Or.inl h
            · exact Or.inl (h ▸ hn)
            · exact Or.inr h
          · rintro (h | h)
            · exact Or.inl h
            · exact Or.inr (Or.inr h)
        simp [firstOcc, hs, hn, ih, firstOcc_congr vars hc]
      · have hc : ∀ x, x ∈ names ++ v :: seen ↔ x ∈ v :: (names ++ seen) := by
          intro x
          simp only [List.mem_append, List.mem_cons]
          tauto
        simp [firstOcc, hs, hn, ih, firstOcc_congr vars hc]

theorem firstOcc_filter (names seen vars : List String) :
    firstOcc seen (vars.filter (fun v => !decide (v ∈ names))) =
      firstOcc (names ++ seen) vars := by
  induction vars generalizing seen with
  | nil => simp [firstOcc]
  | cons v vars ih =>
    by_cases hn : v ∈ names
    · simp [firstOcc, hn, ih]
    · by_cases hs : v ∈ seen
      · simp [firstOcc, hs, hn, ih]
      · have hc : ∀ x, x ∈ names ++ v :: seen ↔ x ∈ v :: (names ++ seen) := by
          intro x
          simp only [List.mem_append, List.mem_cons]
          tauto
        simp [firstOcc, hs, hn, ih, firstOcc_congr vars hc]

theorem specFilterDedupLoop_eq (names vars kept : List String) :
    specFilterDedupLoop names vars kept = kept ++ firstOcc (names ++ kept) vars := by
  induction vars generalizing kept with
  | nil => simp [specFilterDedupLoop, firstOcc]
  | cons v vars ih =>
    by_cases h : v ∉ names ∧ v ∉ kept
    · have hm : v ∉ names ++ kept := by
        simp only [List.mem_append, not_or]
        exact h
      have hc : ∀ x, x ∈ names ++ (kept ++ [v]) ↔ x ∈ v :: (names ++ kept) := by
        intro x
        simp only [List.mem_append, List.mem_cons, List.mem_singleton]
        tauto
      simp only [specFilterDedupLoop, h, and_self, not_false_eq_true, if_true, ih, firstOcc,
        hm, if_false, firstOcc_congr vars hc]
      simp
    · have hm : v ∈ names ++ kept := by
        simp only [List.mem_append]
        by_contra c
        exact h ⟨fun a => c (Or.inl a), fun a => c (Or.inr a)⟩
      simp only [specFilterDedupLoop, h, if_false, ih, firstOcc, hm, if_true]

/-! ## Lemmas on the filter and the sorter -/

theorem mem_RemoveElements {vars names : List String} {x : String} :
    x ∈ RemoveElements vars names ↔ x ∈ vars ∧ x ∉ names := by
  simp [RemoveElements, List.mem_filter]

theorem nodup_RemoveElements {vars : List String} (names : List String) (h : vars.Nodup) :
    (RemoveElements vars names).Nodup :=
  h.filter _

theorem sortStrings_sorted (xs : List String) : (sortStrings xs).Sorted (· ≤ ·) :=
  List.sorted_insertionSort _ xs

theorem sortStrings_perm (xs : List String) : (sortStrings xs).Perm xs :=
  List.perm_insertionSort _ xs

theorem mem_sortStrings {xs : List String} {x : String} : x ∈ sortStrings xs ↔ x ∈ xs :=
  (sortStrings_perm xs).mem_iff

theorem sortStrings_congr {xs ys : List String} (hx : xs.Nodup) (hy : ys.Nodup)
    (h : ∀ x, x ∈ xs ↔ x ∈ ys) : sortStrings xs = sortStrings ys := by
  have hp : xs.Perm ys := (List.perm_ext_iff_of_nodup hx hy).2 h
  have hq : (sortStrings xs).Perm (sortStrings ys) :=
    ((sortStrings_perm xs).trans hp).trans (sortStrings_perm ys).symm
  exact List.eq_of_perm_of_sorted hq (sortStrings_sorted xs) (sortStrings_sorted ys)

/-- The final list is determined by the members of the raw list and of the
name list. -/
theorem final_congr {xs ys ns ms : List String} (h : ∀ x, x ∈ xs ↔ x ∈ ys)
    (hn : ∀ x, x ∈ ns ↔ x ∈ ms) :
    sortStrings (RemoveElements (unique xs) ns) = sortStrings (RemoveElements (unique ys) ms) := by
  apply sortStrings_congr (nodup_RemoveElements _ (nodup_unique _))
    (nodup_RemoveElements _ (nodup_unique _))
  intro x
  simp [mem_RemoveElements, mem_unique, h x, hn x]

/-! ## Lemmas on the walker -/

theorem concatOpt_eq_none {l : List (Option (List String))} :
    concatOpt l = none ↔ none ∈ l := by
  induction l with
  | nil => simp [concatOpt]
  | cons a l ih =>
    cases a with
    | none => simp [concatOpt]
    | some vs =>
      cases h : concatOpt l with
      | none => simp [concatOpt, h, ← ih]
      | some ws =>
        have : none ∉ l := fun c => by
          rw [ih.2 c] at h
          cases h
        simp [concatOpt, h, this]

theorem mem_concatOpt {l : List (Option (List String))} {r : List String}
    (h : concatOpt l = some r) (x : String) :
    x ∈ r ↔ ∃ vs, some vs ∈ l ∧ x ∈ vs := by
  induction l generalizing r with
  | nil =>
    simp only [concatOpt, Option.some.injEq] at h
    subst h
    simp
  | cons a l ih =>
    cases a with
    | none => simp [concatOpt] at h
    | some vs =>
      cases h2 : concatOpt l with
      | none => simp [concatOpt, h2] at h
      | some ws =>
        simp only [concatOpt, h2, Option.some.injEq] at h
        subst h
        simp only [List.mem_append, ih h2, List.mem_cons, Option.some.injEq]
        constructor
        · rintro (h1 | ⟨us, h1, h3⟩)
          · exact ⟨vs, Or.inl rfl, h1⟩
          · exact ⟨us, Or.inr h1, h3⟩
        · rintro ⟨us, h1 | h1, h3⟩
          · exact Or.inl (h1 ▸ h3)
          · exact Or.inr ⟨us, h1, h3⟩

theorem findVariablesNodes_eq (ns : List Node) :
    findVariablesNodes ns = concatOpt (ns.map findVariables) := by
  induction ns with
  | nil => simp [findVariablesNodes, concatOpt]
  | cons n ns ih =>
    cases h : findVariables n with
    | none => simp [findVariablesNodes, concatOpt, h]
    | some vs => simp [findVariablesNodes, concatOpt, h, ih]

theorem walkTemplates_eq (tmpls : List NamedTemplate) :
    walkTemplates tmpls = concatOpt (tmpls.map walkTemplate) := by
  induction tmpls with
  | nil => simp [walkTemplates, concatOpt]
  | cons t tmpls ih =>
    cases h : walkTemplate t with
    | none => simp [walkTemplates, concatOpt, h]
    | some vs => simp [walkTemplates, concatOpt, h, ih]

theorem findVariablesNodes_append (ns ms : List Node) :
    findVariablesNodes (ns ++ ms) =
      match findVariablesNodes ns with
      | none => none
      | some vs =>
        match findVariablesNodes ms with
        | none => none
        | some ws => some (vs ++ ws) := by
  induction ns with
  | nil =>
    cases h : findVariablesNodes ms <;> simp [findVariablesNodes, h]
  | cons n ns ih =>
    cases h1 : findVariables n with
    | none => simp [findVariablesNodes, h1]
    | some us =>
      cases h2 : findVariablesNodes ns with
      | none => simp [findVariablesNodes, h1, h2, ih]
      | some vs =>
        cases h3 : findVariablesNodes ms with
        | none => simp [findVariablesNodes, h1, h2, h3, ih]
        | some ws => simp [findVariablesNodes, h1, h2, h3, ih]

theorem walkTemplates_eq_nodes (tmpls : List NamedTemplate) :
    walkTemplates tmpls = findVariablesNodes (templateNodes tmpls) := by
  induction tmpls with
  | nil => simp [walkTemplates, templateNodes, findVariablesNodes]
  | cons t tmpls ih =>
    have hn : templateNodes (t :: tmpls) =
        (match t.Tree with
         | none => []
         | some tree => tree.Root) ++ templateNodes tmpls := by
      simp [templateNodes]
    rw [hn, findVariablesNodes_append, walkTemplates, ih, walkTemplate]
    cases t.Tree with
    | none => cases findVariablesNodes (templateNodes tmpls) <;> simp [findVariablesNodes]
    | some tree => rfl

/-! ## The walker does not panic on well-formed trees -/

mutual
theorem findVariablesFromPipe_total : (p : PipeNode) →
    (∀ m ∈ subnodesOfPipe p, fieldIdent m ≠ some []) → ∃ vs, findVariablesFromPipe p = some vs
  | .mk _ _ cmds, h => by
    rw [findVariablesFromPipe]
    exact findVariablesFromCmds_total cmds (by simpa [subnodesOfPipe] using h)
theorem findVariablesFromCmds_total : (cmds : List CommandNode) →
    (∀ m ∈ subnodesOfCmds cmds, fieldIdent m ≠ some []) →
    ∃ vs, findVariablesFromCmds cmds = some vs
  | [], _ => ⟨[], by rw [findVariablesFromCmds]⟩
  | .mk args :: cmds, h => by
    have h1 : ∀ m ∈ subnodesOfNodes args, fieldIdent m ≠ some [] := fun m hm =>
      h m (by simp [subnodesOfCmds, subnodesOfCmd, hm])
    have h2 : ∀ m ∈ subnodesOfCmds cmds, fieldIdent m ≠ some [] := fun m hm =>
      h m (by simp [subnodesOfCmds, hm])
    obtain ⟨vs, hvs⟩ := findVariablesFromArgs_total args h1
    obtain ⟨ws, hws⟩ := findVariablesFromCmds_total cmds h2
    exact ⟨vs ++ ws, by simp [findVariablesFromCmds, hvs, hws]⟩
theorem findVariablesFromArgs_total : (args : List Node) →
    (∀ m ∈ subnodesOfNodes args, fieldIdent m ≠ some []) →
    ∃ vs, findVariablesFromArgs args = some vs
  | [], _ => ⟨[], by rw [findVariablesFromArgs]⟩
  | arg :: args, h => by
    have h2 : ∀ m ∈ subnodesOfNodes args, fieldIdent m ≠ some [] := fun m hm =>
      h m (by simp [subnodesOfNodes, hm])
    obtain ⟨ws, hws⟩ := findVariablesFromArgs_total args h2
    cases arg with
    | Field ident =>
      cases ident with
      | nil => exact absurd rfl (h (.Field []) (by simp [subnodesOfNodes, subnodes]))
      | cons v rest => exact ⟨v :: ws, by simp [findVariablesFromArgs, hws]⟩
    | Pipe p =>
      have h1 : ∀ m ∈ subnodesOfPipe p, fieldIdent m ≠ some [] := fun m hm =>
        h m (by simp [subnodesOfNodes, subnodes, hm])
      obtain ⟨vs, hvs⟩ := findVariablesFromPipe_total p h1
      exact ⟨vs ++ ws, by simp [findVariablesFromArgs, hvs, hws]⟩
    | _ => exact ⟨ws, by simp [findVariablesFromArgs, hws]⟩
end

theorem mem_subnodes_Action {p : PipeNode} {m : Node} (hm : m ∈ subnodesOfPipe p) :
    m ∈ subnodes (.Action p) := by
  simp [subnodes, hm]

theorem mem_subnodes_Pipe {p : PipeNode} {m : Node} (hm : m ∈ subnodesOfPipe p) :
    m ∈ subnodes (.Pipe p) := by
  simp [subnodes, hm]

theorem mem_subnodes_Range {p : PipeNode} {l : List Node} {e : Option (List Node)} {m : Node}
    (hm : m ∈ subnodesOfPipe p) : m ∈ subnodes (.Range p l e) := by
  simp [subnodes, hm]

theorem mem_subnodes_With {p : PipeNode} {l : List Node} {e : Option (List Node)} {m : Node}
    (hm : m ∈ subnodesOfPipe p) : m ∈ subnodes (.With p l e) := by
  simp [subnodes, hm]

theorem mem_subnodes_If {p : PipeNode} {l : List Node} {e : Option (List Node)} {m : Node}
    (hm : m ∈ subnodesOfPipe p) : m ∈ subnodes (.If p l e) := by
  simp [subnodes, hm]

theorem mem_subnodes_Branch_pipe {p : PipeNode} {l : List Node} {e : Option (List Node)}
    {m : Node} (hm : m ∈ subnodesOfPipe p) : m ∈ subnodes (.Branch p l e) := by
  simp [subnodes, hm]

theorem mem_subnodes_Branch_list {p : PipeNode} {l : List Node} {e : Option (List Node)}
    {m : Node} (hm : m ∈ subnodesOfNodes l) : m ∈ subnodes (.Branch p l e) := by
  simp [subnodes, hm]

theorem mem_subnodes_Branch_else {p : PipeNode} {l el : List Node} {m : Node}
    (hm : m ∈ subnodesOfNodes el) : m ∈ subnodes (.Branch p l (some el)) := by
  simp [subnodes, subnodesOfElse, hm]

theorem mem_subnodesOfNodes_head {n : Node} {ns : List Node} {m : Node}
    (hm : m ∈ subnodes n) : m ∈ subnodesOfNodes (n :: ns) := by
  simp [subnodesOfNodes, hm]

theorem mem_subnodesOfNodes_tail {n : Node} {ns : List Node} {m : Node}
    (hm : m ∈ subnodesOfNodes ns) : m ∈ subnodesOfNodes (n :: ns) := by
  simp [subnodesOfNodes, hm]

mutual
theorem findVariables_total : (n : Node) →
    (∀ m ∈ subnodes n, fieldIdent m ≠ some []) → ∃ vs, findVariables n = some vs
  | .Action p, h => by
    rw [findVariables]
    exact findVariablesFromPipe_total p (fun m hm => h m (mem_subnodes_Action hm))
  | .Range p _ _, h => by
    rw [findVariables]
    exact findVariablesFromPipe_total p (fun m hm => h m (mem_subnodes_Range hm))
  | .With p _ _, h => by
    rw [findVariables]
    exact findVariablesFromPipe_total p (fun m hm => h m (mem_subnodes_With hm))
  | .If p _ _, h => by
    rw [findVariables]
    exact findVariablesFromPipe_total p (fun m hm => h m (mem_subnodes_If hm))
  | .Pipe p, h => by
    rw [findVariables]
    exact findVariablesFromPipe_total p (fun m hm => h m (mem_subnodes_Pipe hm))
  | .Template name _, _ => ⟨[name], by rw [findVariables]⟩
  | .Branch p l e, h => by
    obtain ⟨vs, hvs⟩ := findVariablesFromPipe_total p (fun m hm =>
      h m (mem_subnodes_Branch_pipe hm))
    obtain ⟨ws, hws⟩ := findVariablesNodes_total l (fun m hm =>
      h m (mem_subnodes_Branch_list hm))
    obtain ⟨us, hus⟩ := findVariablesElse_total e (fun el he m hm => by
      subst he
      exact h m (mem_subnodes_Branch_else hm))
    exact ⟨vs ++ ws ++ us, by simp [findVariables, hvs, hws, hus]⟩
  | .Text _, _ => ⟨[], by simp [findVariables]⟩
  | .Bool _, _ => ⟨[], by simp [findVariables]⟩
  | .Chain _ _, _ => ⟨[], by simp [findVariables]⟩
  | .Command _, _ => ⟨[], by simp [findVariables]⟩
  | .Dot, _ => ⟨[], by simp [findVariables]⟩
  | .Field _, _ => ⟨[], by simp [findVariables]⟩
  | .Identifier _, _ => ⟨[], by simp [findVariables]⟩
  | .List _, _ => ⟨[], by simp [findVariables]⟩
  | .Nil, _ => ⟨[], by simp [findVariables]⟩
  | .Number _, _ => ⟨[], by simp [findVariables]⟩
  | .String _ _, _ => ⟨[], by simp [findVariables]⟩
  | .Variable _, _ => ⟨[], by simp [findVariables]⟩
  | .Comment _, _ => ⟨[], by simp [findVariables]⟩
  | .Break, _ => ⟨[], by simp [findVariables]⟩
  | .Continue, _ => ⟨[], by simp [findVariables]⟩
theorem findVariablesNodes_total : (ns : List Node) →
    (∀ m ∈ subnodesOfNodes ns, fieldIdent m ≠ some []) →
    ∃ vs, findVariablesNodes ns = some vs
  | [], _ => ⟨[], by rw [findVariablesNodes]⟩
  | n :: ns, h => by
    obtain ⟨vs, hvs⟩ := findVariables_total n (fun m hm => h m (mem_subnodesOfNodes_head hm))
    obtain ⟨ws, hws⟩ := findVariablesNodes_total ns (fun m hm =>
      h m (mem_subnodesOfNodes_tail hm))
    exact ⟨vs ++ ws, by simp [findVariablesNodes, hvs, hws]⟩
theorem findVariablesElse_total : (e : Option (List Node)) →
    (∀ el, e = some el → ∀ m ∈ subnodesOfNodes el, fieldIdent m ≠ some []) →
    ∃ vs, findVariablesElse e = some vs
  | none, _ => ⟨[], by rw [findVariablesElse]⟩
  | some el, h => by
    rw [findVariablesElse]
    exact findVariablesNodes_total el (h el rfl)
end

theorem subnodesOfNodes_append (ns ms : List Node) :
    subnodesOfNodes (ns ++ ms) = subnodesOfNodes ns ++ subnodesOfNodes ms := by
  induction ns with
  | nil => simp [subnodesOfNodes]
  | cons n ns ih => simp [subnodesOfNodes, ih]

theorem ExtractVariables_eq {t : Template} {root : Tree} (ht : t.Tree = some root) :
    ExtractVariables t =
      match findVariablesNodes t.topNodes with
      | none => none
      | some vs => some (unique vs) := by
  simp only [ExtractVariables, ht, Template.topNodes, findVariablesNodes_append,
    walkTemplates_eq_nodes]
  cases findVariablesNodes root.Root with
  | none => rfl
  | some vs =>
    cases findVariablesNodes (templateNodes t.Templates) with
    | none => rfl
    | some ws => rfl

theorem ExtractVariables_total (t : Template) (hwf : t.WellFormed) :
    ∃ vars, ExtractVariables t = some vars := by
  cases ht : t.Tree with
  | none => exact ⟨[], by simp [ExtractVariables, ht]⟩
  | some root =>
    obtain ⟨vs, hvs⟩ := findVariablesNodes_total t.topNodes hwf
    exact ⟨unique vs, by rw [ExtractVariables_eq ht, hvs]⟩

/-- With a root tree and on well-formed trees, `ExtractVariables` returns a
list whose members are what `findVariables` returns on the top-level nodes. -/
theorem ExtractVariables_spec {t : Template} {root : Tree} (ht : t.Tree = some root)
    (hwf : t.WellFormed) :
    ∃ raw, findVariablesNodes t.topNodes = some raw ∧ ExtractVariables t = some (unique raw) ∧
      ∀ x, x ∈ raw ↔ ∃ n ∈ t.topNodes, ∃ vs, findVariables n = some vs ∧ x ∈ vs := by
  obtain ⟨raw, hraw⟩ := findVariablesNodes_total t.topNodes hwf
  refine ⟨raw, hraw, by rw [ExtractVariables_eq ht, hraw], ?_⟩
  intro x
  rw [findVariablesNodes_eq] at hraw
  rw [mem_concatOpt hraw x]
  constructor
  · rintro ⟨vs, h1, h2⟩
    obtain ⟨n, hn, hv⟩ := List.mem_map.1 h1
    exact ⟨n, hn, vs, hv, h2⟩
  · rintro ⟨n, hn, vs, hv, h2⟩
    exact ⟨vs, List.mem_map.2 ⟨n, hn, hv⟩, h2⟩

theorem ExtraValFromTemplate_eq {compile : Compiler} {text : String} {t : Template}
    (hc : Template.Parse compile "temp" text = .ok t) :
    ExtraValFromTemplate compile text =
      match ExtractVariables t with
      | none => none
      | some vars =>
        some (.ok (sortStrings (RemoveElements vars (t.Name :: t.Templates.map (·.Name))))) := by
  simp only [ExtraValFromTemplate, hc, AnalyzeTmplByTemplate]

theorem mem_templateNodes {tmpls : List NamedTemplate} {n : Node} :
    n ∈ templateNodes tmpls ↔
      ∃ tmpl ∈ tmpls, ∃ tree, tmpl.Tree = some tree ∧ n ∈ tree.Root := by
  simp only [templateNodes, List.mem_flatMap]
  constructor
  · rintro ⟨tmpl, h1, h2⟩
    cases h : tmpl.Tree with
    | none => simp [h] at h2
    | some tree =>
      rw [h] at h2
      exact ⟨tmpl, h1, tree, h, h2⟩
  · rintro ⟨tmpl, h1, tree, h, h2⟩
    refine ⟨tmpl, h1, ?_⟩
    rw [h]
    exact h2

theorem mem_topNodes {t : Template} {root : Tree} (ht : t.Tree = some root) {n : Node} :
    n ∈ t.topNodes ↔
      n ∈ root.Root ∨ ∃ tmpl ∈ t.Templates, ∃ tree, tmpl.Tree = some tree ∧ n ∈ tree.Root := by
  simp only [Template.topNodes, ht, List.mem_append, mem_templateNodes]

/-- The shape of the result on a well-formed compiled template with a root
tree: the sorted, filtered, deduplicated raw walk. -/
theorem ExtraValFromTemplate_spec {compile : Compiler} {text : String} {t : Template}
    {root : Tree} (hc : Template.Parse compile "temp" text = .ok t) (ht : t.Tree = some root)
    (hwf : t.WellFormed) :
    ∃ raw, findVariablesNodes t.topNodes = some raw ∧
      ExtractVariables t = some (unique raw) ∧
      ExtraValFromTemplate compile text =
        some (.ok (sortStrings (RemoveElements (unique raw)
          (t.Name :: t.Templates.map (·.Name))))) ∧
      ∀ x, x ∈ raw ↔ ∃ n ∈ t.topNodes, ∃ vs, findVariables n = some vs ∧ x ∈ vs := by
  obtain ⟨raw, h1, h2, h3⟩ := ExtractVariables_spec ht hwf
  exact ⟨raw, h1, h2, by rw [ExtraValFromTemplate_eq hc, h2], h3⟩

theorem strictly_ascending_final (vars names : List String) (hv : vars.Nodup) :
    List.Chain' (· < ·) (sortStrings (RemoveElements vars names)) ∧
      (sortStrings (RemoveElements vars names)).Sorted (· ≤ ·) ∧
      (sortStrings (RemoveElements vars names)).Nodup := by
  have hs := sortStrings_sorted (RemoveElements vars names)
  have hn : (sortStrings (RemoveElements vars names)).Nodup :=
    (sortStrings_perm _).nodup_iff.2 (nodup_RemoveElements names hv)
  exact ⟨(hs.lt_of_le hn).chain', hs, hn⟩

/-! ## The pipe walker against its reference definition -/

mutual
theorem findVariablesFromPipe_sound : (p : PipeNode) → (vs : List String) →
    findVariablesFromPipe p = some vs → vs = specPipe p
  | .mk _ _ cmds, vs, h => by
    rw [findVariablesFromPipe] at h
    rw [specPipe]
    exact findVariablesFromCmds_sound cmds vs h
theorem findVariablesFromCmds_sound : (cmds : List CommandNode) → (vs : List String) →
    findVariablesFromCmds cmds = some vs → vs = specCmds cmds
  | [], vs, h => by
    simp only [findVariablesFromCmds, Option.some.injEq] at h
    rw [specCmds, ← h]
  | .mk args :: cmds, vs, h => by
    cases h1 : findVariablesFromArgs args with
    | none => simp [findVariablesFromCmds, h1] at h
    | some us =>
      cases h2 : findVariablesFromCmds cmds with
      | none => simp [findVariablesFromCmds, h1, h2] at h
      | some ws =>
        simp only [findVariablesFromCmds, h1, h2, Option.some.injEq] at h
        rw [specCmds, ← h, findVariablesFromArgs_sound args us h1,
          findVariablesFromCmds_sound cmds ws h2]
theorem findVariablesFromArgs_sound : (args : List Node) → (vs : List String) →
    findVariablesFromArgs args = some vs → vs = specArgs args
  | [], vs, h => by
    simp only [findVariablesFromArgs, Option.some.injEq] at h
    rw [specArgs, ← h]
  | arg :: args, vs, h => by
    cases arg with
    | Field ident =>
      cases ident with
      | nil => simp [findVariablesFromArgs] at h
      | cons v rest =>
        cases h2 : findVariablesFromArgs args with
        | none => simp [findVariablesFromArgs, h2] at h
        | some ws =>
          simp only [findVariablesFromArgs, h2, Option.some.injEq] at h
          rw [specArgs, ← h, findVariablesFromArgs_sound args ws h2]
          simp [specArg]
    | Pipe p =>
      cases h1 : findVariablesFromPipe p with
      | none => simp [findVariablesFromArgs, h1] at h
      | some us =>
        cases h2 : findVariablesFromArgs args with
        | none => simp [findVariablesFromArgs, h1, h2] at h
        | some ws =>
          simp only [findVariablesFromArgs, h1, h2, Option.some.injEq] at h
          rw [specArgs, ← h, findVariablesFromArgs_sound args ws h2, specArg,
            findVariablesFromPipe_sound p us h1]
    | _ =>
      simp only [findVariablesFromArgs] at h
      rw [specArgs, findVariablesFromArgs_sound args vs h]
      simp [specArg]
end

theorem specArgs_eq_flatMap (args : List Node) : specArgs args = args.flatMap specArg := by
  induction args with
  | nil => simp [specArgs]
  | cons a args ih => simp [specArgs, ih]

theorem specCmds_eq_flatMap (cmds : List CommandNode) :
    specCmds cmds = cmds.flatMap (fun cmd =>
      match cmd with
      | .mk args => args.flatMap specArg) := by
  induction cmds with
  | nil => simp [specCmds]
  | cons c cmds ih =>
    cases c with
    | mk args => simp [specCmds, ih, specArgs_eq_flatMap]

/-! ## Order of enumeration -/

theorem walkTemplates_perm {l₁ l₂ : List NamedTemplate} (hp : l₁.Perm l₂) :
    (walkTemplates l₁ = none ∧ walkTemplates l₂ = none) ∨
      ∃ a b, walkTemplates l₁ = some a ∧ walkTemplates l₂ = some b ∧ ∀ x, x ∈ a ↔ x ∈ b := by
  have hm : ∀ o, o ∈ l₁.map walkTemplate ↔ o ∈ l₂.map walkTemplate := fun o =>
    (hp.map walkTemplate).mem_iff
  cases h1 : walkTemplates l₁ with
  | none =>
    left
    refine ⟨rfl, ?_⟩
    rw [walkTemplates_eq, concatOpt_eq_none] at h1 ⊢
    exact (hm none).1 h1
  | some a =>
    cases h2 : walkTemplates l₂ with
    | none =>
      rw [walkTemplates_eq, concatOpt_eq_none] at h2
      rw [walkTemplates_eq] at h1
      have := concatOpt_eq_none.2 ((hm none).2 h2)
      rw [this] at h1
      cases h1
    | some b =>
      right
      refine ⟨a, b, rfl, rfl, fun x => ?_⟩
      rw [walkTemplates_eq] at h1 h2
      rw [mem_concatOpt h1 x, mem_concatOpt h2 x]
      constructor
      · rintro ⟨vs, hv, hx⟩
        exact ⟨vs, (hm _).1 hv, hx⟩
      · rintro ⟨vs, hv, hx⟩
        exact ⟨vs, (hm _).2 hv, hx⟩

/-! ## Without field references the walk yields inclusion names only -/

theorem mem_subnodesOfNodes {ns : List Node} {m : Node} :
    m ∈ subnodesOfNodes ns ↔ ∃ n ∈ ns, m ∈ subnodes n := by
  induction ns with
  | nil => simp [subnodesOfNodes]
  | cons n ns ih => simp [subnodesOfNodes, ih]

mutual
theorem findVariablesFromPipe_nil : (p : PipeNode) →
    (∀ m ∈ subnodesOfPipe p, fieldIdent m = none) → findVariablesFromPipe p = some []
  | .mk _ _ cmds, h => by
    rw [findVariablesFromPipe]
    exact findVariablesFromCmds_nil cmds (by simpa [subnodesOfPipe] using h)
theorem findVariablesFromCmds_nil : (cmds : List CommandNode) →
    (∀ m ∈ subnodesOfCmds cmds, fieldIdent m = none) → findVariablesFromCmds cmds = some []
  | [], _ => by rw [findVariablesFromCmds]
  | .mk args :: cmds, h => by
    have h1 : ∀ m ∈ subnodesOfNodes args, fieldIdent m = none := fun m hm =>
      h m (by simp [subnodesOfCmds, subnodesOfCmd, hm])
    have h2 : ∀ m ∈ subnodesOfCmds cmds, fieldIdent m = none := fun m hm =>
      h m (by simp [subnodesOfCmds, hm])
    simp [findVariablesFromCmds, findVariablesFromArgs_nil args h1,
      findVariablesFromCmds_nil cmds h2]
theorem findVariablesFromArgs_nil : (args : List Node) →
    (∀ m ∈ subnodesOfNodes args, fieldIdent m = none) → findVariablesFromArgs args = some []
  | [], _ => by rw [findVariablesFromArgs]
  | arg :: args, h => by
    have h2 : ∀ m ∈ subnodesOfNodes args, fieldIdent m = none := fun m hm =>
      h m (by simp [subnodesOfNodes, hm])
    have ih := findVariablesFromArgs_nil args h2
    cases arg with
    | Field ident =>
      have := h (.Field ident) (by simp [subnodesOfNodes, subnodes])
      simp [fieldIdent] at this
    | Pipe p =>
      have h1 : ∀ m ∈ subnodesOfPipe p, fieldIdent m = none := fun m hm =>
        h m (by simp [subnodesOfNodes, subnodes, hm])
      simp [findVariablesFromArgs, findVariablesFromPipe_nil p h1, ih]
    | _ => simp [findVariablesFromArgs, ih]
end

mutual
theorem findVariables_inclusions : (n : Node) →
    (∀ m ∈ subnodes n, fieldIdent m = none) → (vs : List String) →
    findVariables n = some vs → ∀ x ∈ vs, ∃ m ∈ subnodes n, inclusionName m = some x
  | .Action p, h, vs, hv, x, hx => by
    rw [findVariables, findVariablesFromPipe_nil p (fun m hm =>
      h m (mem_subnodes_Action hm))] at hv
    cases hv
    cases hx
  | .Range p _ _, h, vs, hv, x, hx => by
    rw [findVariables, findVariablesFromPipe_nil p (fun m hm =>
      h m (mem_subnodes_Range hm))] at hv
    cases hv
    cases hx
  | .With p _ _, h, vs, hv, x, hx => by
    rw [findVariables, findVariablesFromPipe_nil p (fun m hm =>
      h m (mem_subnodes_With hm))] at hv
    cases hv
    cases hx
  | .If p _ _, h, vs, hv, x, hx => by
    rw [findVariables, findVariablesFromPipe_nil p (fun m hm =>
      h m (mem_subnodes_If hm))] at hv
    cases hv
    cases hx
  | .Pipe p, h, vs, hv, x, hx => by
    rw [findVariables, findVariablesFromPipe_nil p (fun m hm =>
      h m (mem_subnodes_Pipe hm))] at hv
    cases hv
    cases hx
  | .Template name q, _, vs, hv, x, hx => by
    rw [findVariables] at hv
    cases hv
    rw [List.mem_singleton] at hx
    subst hx
    exact ⟨.Template x q, by simp [subnodes], rfl⟩
  | .Branch p l e, h, vs, hv, x, hx => by
    have hp := findVariablesFromPipe_nil p (fun m hm => h m (mem_subnodes_Branch_pipe hm))
    cases h1 : findVariablesNodes l with
    | none => simp [findVariables, hp, h1] at hv
    | some ws =>
      cases h2 : findVariablesElse e with
      | none => simp [findVariables, hp, h1, h2] at hv
      | some us =>
        simp only [findVariables, hp, h1, h2, Option.some.injEq, List.nil_append] at hv
        subst hv
        rcases List.mem_append.1 hx with hx | hx
        · obtain ⟨m, hm, hi⟩ := findVariablesNodes_inclusions l (fun m hm =>
            h m (mem_subnodes_Branch_list hm)) ws h1 x hx
          exact ⟨m, mem_subnodes_Branch_list hm, hi⟩
        · cases e with
          | none =>
            rw [findVariablesElse] at h2
            cases h2
            cases hx
          | some el =>
            rw [findVariablesElse] at h2
            obtain ⟨m, hm, hi⟩ := findVariablesNodes_inclusions el (fun m hm =>
              h m (mem_subnodes_Branch_else hm)) us h2 x hx
            exact ⟨m, mem_subnodes_Branch_else hm, hi⟩
  | .Text _, _, vs, hv, x, hx => by
    simp [findVariables] at hv
    subst hv
    cases hx
  | .Bool _, _, vs, hv, x, hx => by
    simp [findVariables] at hv
    subst hv
    cases hx
  | .Chain _ _, _, vs, hv, x, hx => by
    simp [findVariables] at hv
    subst hv
    cases hx
  | .Command _, _, vs, hv, x, hx => by
    simp [findVariables] at hv
    subst hv
    cases hx
  | .Dot, _, vs, hv, x, hx => by
    simp [findVariables] at hv
    subst hv
    cases hx
  | .Field _, _, vs, hv, x, hx => by
    simp [findVariables] at hv
    subst hv
    cases hx
  | .Identifier _, _, vs, hv, x, hx => by
    simp [findVariables] at hv
    subst hv
    cases hx
  | .List _, _, vs, hv, x, hx => by
    simp [findVariables] at hv
    subst hv
    cases hx
  | .Nil, _, vs, hv, x, hx => by
    simp [findVariables] at hv
    subst hv
    cases hx
  | .Number _, _, vs, hv, x, hx => by
    simp [findVariables] at hv
    subst hv
    cases hx
  | .String _ _, _, vs, hv, x, hx => by
    simp [findVariables] at hv
    subst hv
    cases hx
  | .Variable _, _, vs, hv, x, hx => by
    simp [findVariables] at hv
    subst hv
    cases hx
  | .Comment _, _, vs, hv, x, hx => by
    simp [findVariables] at hv
    subst hv
    cases hx
  | .Break, _, vs, hv, x, hx => by
    simp [findVariables] at hv
    subst hv
    cases hx
  | .Continue, _, vs, hv, x, hx => by
    simp [findVariables] at hv
    subst hv
    cases hx
theorem findVariablesNodes_inclusions : (ns : List Node) →
    (∀ m ∈ subnodesOfNodes ns, fieldIdent m = none) → (vs : List String) →
    findVariablesNodes ns = some vs → ∀ x ∈ vs, ∃ m ∈ subnodesOfNodes ns, inclusionName m = some x
  | [], _, vs, hv, x, hx => by
    rw [findVariablesNodes] at hv
    cases hv
    cases hx
  | n :: ns, h, vs, hv, x, hx => by
    cases h1 : findVariables n with
    | none => simp [findVariablesNodes, h1] at hv
    | some us =>
      cases h2 : findVariablesNodes ns with
      | none => simp [findVariablesNodes, h1, h2] at hv
      | some ws =>
        simp only [findVariablesNodes, h1, h2, Option.some.injEq] at hv
        subst hv
        rcases List.mem_append.1 hx with hx | hx
        · obtain ⟨m, hm, hi⟩ := findVariables_inclusions n (fun m hm =>
            h m (mem_subnodesOfNodes_head hm)) us h1 x hx
          exact ⟨m, mem_subnodesOfNodes_head hm, hi⟩
        · obtain ⟨m, hm, hi⟩ := findVariablesNodes_inclusions ns (fun m hm =>
            h m (mem_subnodesOfNodes_tail hm)) ws h2 x hx
          exact ⟨m, mem_subnodesOfNodes_tail hm, hi⟩
end

/-! ## Lemmas on alias extraction -/

theorem ExtractSelectAliasLoop_eq (sel : List (Option MixField)) (acc : List String) :
    ExtractSelectAliasLoop sel acc = acc ++ sel.map switchAlias := by
  induction sel generalizing acc with
  | nil => simp [ExtractSelectAliasLoop]
  | cons s sel ih => simp [ExtractSelectAliasLoop, ih]

theorem ExtractSelectAlias_eq_map (sel : List (Option MixField)) :
    ExtractSelectAlias sel = sel.map switchAlias := by
  simp [ExtractSelectAlias, ExtractSelectAliasLoop_eq]

theorem ExtractOrderAliasLoop_none (order : List (Option OrderBy)) (acc : List String)
    (h : none ∈ order) : ExtractOrderAliasLoop order acc = none := by
  induction order generalizing acc with
  | nil => cases h
  | cons o order ih =>
    cases o with
    | none => simp [ExtractOrderAliasLoop]
    | some entry =>
      have h2 : none ∈ order := by simpa using h
      simp [ExtractOrderAliasLoop, ih _ h2]

theorem ExtractOrderAliasLoop_some (entries : List OrderBy) (acc : List String) :
    ExtractOrderAliasLoop (entries.map some) acc =
      some (acc ++ entries.map (fun entry =>
        switchAlias entry.Dependent ++ " " ++ entry.Order)) := by
  induction entries generalizing acc with
  | nil => simp [ExtractOrderAliasLoop]
  | cons entry entries ih => simp [ExtractOrderAliasLoop, GetDependent, ih]

theorem eq_map_some_of_not_mem {α : Type} (l : List (Option α)) (h : none ∉ l) :
    ∃ vals : List α, l = vals.map some := by
  induction l with
  | nil => exact ⟨[], rfl⟩
  | cons o l ih =>
    cases o with
    | none => exact absurd (List.mem_cons_self _ _) h
    | some v =>
      obtain ⟨vals, hv⟩ := ih (fun c => h (List.mem_cons_of_mem _ c))
      exact ⟨v :: vals, by simp [hv]⟩

/-! ## Further lemmas on `concatOpt` and on first occurrences -/

theorem concatOpt_append (a b : List (Option (List String))) :
    concatOpt (a ++ b) =
      match concatOpt a with
      | none => none
      | some x =>
        match concatOpt b with
        | none => none
        | some y => some (x ++ y) := by
  induction a with
  | nil => cases h : concatOpt b <;> simp [concatOpt, h]
  | cons o a ih =>
    cases o with
    | none => simp [concatOpt]
    | some vs =>
      cases h1 : concatOpt a with
      | none => simp [concatOpt, h1, ih]
      | some x =>
        cases h2 : concatOpt b with
        | none => simp [concatOpt, h1, h2, ih]
        | some y => simp [concatOpt, h1, h2, ih]

theorem concatOpt_map_some (lists : List (List String)) :
    concatOpt (lists.map some) = some lists.flatten := by
  induction lists with
  | nil => simp [concatOpt]
  | cons l lists ih => simp [concatOpt, ih]

theorem findVariablesElse_eq (e : Option (List Node)) :
    findVariablesElse e =
      concatOpt (match e with
        | none => []
        | some el => el.map findVariables) := by
  cases e with
  | none => simp [findVariablesElse, concatOpt]
  | some el => simp [findVariablesElse, findVariablesNodes_eq]

theorem sublist_firstOcc (seen vars : List String) : (firstOcc seen vars).Sublist vars := by
  induction vars generalizing seen with
  | nil => simp [firstOcc]
  | cons v vars ih =>
    by_cases hv : v ∈ seen
    · simp only [firstOcc, hv, if_true]
      exact (ih seen).cons v
    · simp only [firstOcc, hv, if_false]
      exact (ih (v :: seen)).cons₂ v

theorem pairwise_firstOcc (seen vars : List String) :
    (firstOcc seen vars).Pairwise (fun a b => vars.indexOf a < vars.indexOf b) := by
  induction vars generalizing seen with
  | nil => simp [firstOcc]
  | cons v vars ih =>
    have shift : ∀ s : List String, v ∈ s →
        (firstOcc s vars).Pairwise
          (fun a b => (v :: vars).indexOf a < (v :: vars).indexOf b) := by
      intro s hs
      have hne : ∀ a ∈ firstOcc s vars, v ≠ a := fun a ha c =>
        (mem_firstOcc.1 ha).2 (c ▸ hs)
      refine (ih s).imp_of_mem ?_
      intro a b ha hb hab
      rw [List.indexOf_cons_ne _ (hne a ha), List.indexOf_cons_ne _ (hne b hb)]
      exact Nat.succ_lt_succ hab
    by_cases hv : v ∈ seen
    · simp only [firstOcc, hv, if_true]
      exact shift seen hv
    · simp only [firstOcc, hv, if_false, List.pairwise_cons]
      refine ⟨?_, shift (v :: seen) (List.mem_cons_self _ _)⟩
      intro a ha
      have hne : v ≠ a := fun c => (mem_firstOcc.1 ha).2 (c ▸ List.mem_cons_self _ _)
      rw [List.indexOf_cons_self, List.indexOf_cons_ne _ hne]
      exact Nat.succ_pos _

theorem firstOcc_of_nodup (seen l : List String) (hn : l.Nodup) (hd : ∀ x ∈ l, x ∉ seen) :
    firstOcc seen l = l := by
  induction l generalizing seen with
  | nil => rfl
  | cons v l ih =>
    have hv : v ∉ seen := hd v (List.mem_cons_self _ _)
    have hn2 := List.nodup_cons.1 hn
    simp only [firstOcc, hv, if_false]
    rw [ih (v :: seen) hn2.2]
    intro x hx c
    rcases List.mem_cons.1 c with c | c
    · exact hn2.1 (c ▸ hx)
    · exact hd x (List.mem_cons_of_mem _ hx) c

theorem unique_idempotent (vars : List String) : unique (unique vars) = unique vars := by
  rw [unique_eq (unique vars)]
  exact firstOcc_of_nodup [] _ (nodup_unique vars) (fun _ _ c => by cases c)

/-! ## The claims -/

/-- C1: for every template text that compiles (to a well-formed template),
`ExtraValFromTemplate` returns a list that is strictly ascending: every
adjacent pair `a, b` has `a < b`, so the list is sorted and holds no
duplicate. -/
theorem ExtraValFromTemplate_strictly_ascending (compile : Compiler) (text : String)
    (t : Template) (hc : Template.Parse compile "temp" text = .ok t) (hwf : t.WellFormed) :
    ∃ xs, ExtraValFromTemplate compile text = some (.ok xs) ∧
      List.Chain' (· < ·) xs ∧ xs.Sorted (· ≤ ·) ∧ xs.Nodup := by
  cases ht : t.Tree with
  | none =>
    refine ⟨[], ?_, by simp, by simp, by simp⟩
    rw [ExtraValFromTemplate_eq hc]
    simp [ExtractVariables, ht, RemoveElements, sortStrings]
  | some root =>
    obtain ⟨raw, -, -, h3, -⟩ := ExtraValFromTemplate_spec hc ht hwf
    exact ⟨_, h3, strictly_ascending_final _ _ (nodup_unique raw)⟩

/-- C1, at the sample text of the spec: the text with the actions `.A`,
`.B`, `.A` compiles to a well-formed template and the result is
`["A", "B"]`, strictly ascending. -/
theorem ExtraValFromTemplate_strictly_ascending_witness :
    Template.Parse sampleCompiler "temp" srcABA = .ok tmplABA ∧ tmplABA.WellFormed ∧
      ExtraValFromTemplate sampleCompiler srcABA = some (.ok ["A", "B"]) ∧
      ∃ xs, ExtraValFromTemplate sampleCompiler srcABA = some (.ok xs) ∧
        List.Chain' (· < ·) xs ∧ xs.Sorted (· ≤ ·) ∧ xs.Nodup :=
  ⟨rfl, by decide,
    by simp +decide [ExtraValFromTemplate, Template.Parse, sampleCompiler, srcABA,
      AnalyzeTmplByTemplate, ExtractVariables, treeABA, fieldAction, findVariablesNodes,
      findVariables, findVariablesFromPipe, findVariablesFromCmds, findVariablesFromArgs,
      walkTemplates, walkTemplate, unique, uniqueLoop, RemoveElements, sortStrings,
      String.le_iff_toList_le],
    ExtraValFromTemplate_strictly_ascending sampleCompiler srcABA tmplABA rfl (by decide)⟩

/-- C2: for every compiled template with a root tree and every string `x`:
`x` occurs in the result of `ExtraValFromTemplate` if and only if
`findVariables` returns `x` for some top-level node of the root tree or of
the tree of some named template, and `x` is not in the Name Set. In
particular no entry of the result is the name of a registered template. -/
theorem ExtraValFromTemplate_mem_iff (compile : Compiler) (text : String) (t : Template)
    (root : Tree) (hc : Template.Parse compile "temp" text = .ok t) (ht : t.Tree = some root)
    (hwf : t.WellFormed) :
    ∃ xs names, ExtraValFromTemplate compile text = some (.ok xs) ∧
      AnalyzeTmplByTemplate t = .ok names ∧
      (∀ x, x ∈ xs ↔
        (∃ n, (n ∈ root.Root ∨
            ∃ tmpl ∈ t.Templates, ∃ tree, tmpl.Tree = some tree ∧ n ∈ tree.Root) ∧
          ∃ vs, findVariables n = some vs ∧ x ∈ vs) ∧ x ∉ names) ∧
      (∀ x ∈ xs, x ≠ t.Name ∧ ∀ tmpl ∈ t.Templates, x ≠ tmpl.Name) := by
  obtain ⟨raw, -, -, h3, h4⟩ := ExtraValFromTemplate_spec hc ht hwf
  have hmem : ∀ x, x ∈ sortStrings (RemoveElements (unique raw)
      (t.Name :: t.Templates.map (·.Name))) ↔
      (∃ n, (n ∈ root.Root ∨
          ∃ tmpl ∈ t.Templates, ∃ tree, tmpl.Tree = some tree ∧ n ∈ tree.Root) ∧
        ∃ vs, findVariables n = some vs ∧ x ∈ vs) ∧
      x ∉ t.Name :: t.Templates.map (·.Name) := by
    intro x
    rw [mem_sortStrings, mem_RemoveElements, mem_unique, h4 x]
    constructor
    · rintro ⟨⟨n, hn, vs, hv, hx⟩, h5⟩
      exact ⟨⟨n, (mem_topNodes ht).1 hn, vs, hv, hx⟩, h5⟩
    · rintro ⟨⟨n, hn, vs, hv, hx⟩, h5⟩
      exact ⟨⟨n, (mem_topNodes ht).2 hn, vs, hv, hx⟩, h5⟩
  refine ⟨_, _, h3, rfl, hmem, ?_⟩
  intro x hx
  have h5 := ((hmem x).1 hx).2
  refine ⟨fun c => h5 (by simp [c]), fun tmpl htm c => h5 ?_⟩
  rw [c]
  exact List.mem_cons_of_mem _ (List.mem_map.2 ⟨tmpl, htm, rfl⟩)

/-- C2, at the sample text that defines and includes `sub`: the result is
`["X"]`, which holds neither `sub` nor `temp`. -/
theorem ExtraValFromTemplate_mem_iff_witness :
    Template.Parse sampleCompiler "temp" srcDefine = .ok tmplDefine ∧
      tmplDefine.Tree = some treeDefine ∧ tmplDefine.WellFormed ∧
      ∃ xs names, ExtraValFromTemplate sampleCompiler srcDefine = some (.ok xs) ∧
        AnalyzeTmplByTemplate tmplDefine = .ok names ∧
        (∀ x, x ∈ xs ↔
          (∃ n, (n ∈ treeDefine.Root ∨
              ∃ tmpl ∈ tmplDefine.Templates, ∃ tree, tmpl.Tree = some tree ∧ n ∈ tree.Root) ∧
            ∃ vs, findVariables n = some vs ∧ x ∈ vs) ∧ x ∉ names) ∧
        (∀ x ∈ xs, x ≠ tmplDefine.Name ∧ ∀ tmpl ∈ tmplDefine.Templates, x ≠ tmpl.Name) :=
  ⟨rfl, rfl, by decide,
    ExtraValFromTemplate_mem_iff sampleCompiler srcDefine tmplDefine treeDefine rfl rfl
      (by decide)⟩

/-- C3: for every If, With or Range node, `findVariables` equals
`findVariablesFromPipe` of the guard pipe, whatever the body list and the
else list are; at the sample text `if .Cond` with body `.Y` the result of
`ExtraValFromTemplate` is `["Cond"]` and does not hold `"Y"`. -/
theorem findVariables_guard_only :
    (∀ (p : PipeNode) (l : List Node) (e : Option (List Node)),
      findVariables (.If p l e) = findVariablesFromPipe p ∧
      findVariables (.With p l e) = findVariablesFromPipe p ∧
      findVariables (.Range p l e) = findVariablesFromPipe p) ∧
    (∀ (p : PipeNode) (l l' : List Node) (e e' : Option (List Node)),
      findVariables (.If p l e) = findVariables (.If p l' e') ∧
      findVariables (.With p l e) = findVariables (.With p l' e') ∧
      findVariables (.Range p l e) = findVariables (.Range p l' e')) ∧
    Template.Parse sampleCompiler "temp" srcIf = .ok tmplIf ∧
    ∃ xs, ExtraValFromTemplate sampleCompiler srcIf = some (.ok xs) ∧
      xs = ["Cond"] ∧ "Y" ∉ xs := by
  refine ⟨fun p l e => ⟨by rw [findVariables], by rw [findVariables], by rw [findVariables]⟩,
    fun p l l' e e' => ⟨by simp only [findVariables], by simp only [findVariables],
      by simp only [findVariables]⟩, rfl, ["Cond"], ?_, rfl, by decide⟩
  simp +decide [ExtraValFromTemplate, Template.Parse, sampleCompiler, srcABA, srcIf,
    AnalyzeTmplByTemplate, ExtractVariables, treeIf, fieldAction, findVariablesNodes,
    findVariables, findVariablesFromPipe, findVariablesFromCmds, findVariablesFromArgs,
    walkTemplates, walkTemplate, unique, uniqueLoop, RemoveElements, sortStrings,
    String.le_iff_toList_le]

/-- C4: for every compiled template with a root tree, every named template
`T` associated with it and every top-level node `n` of the tree of `T`:
every identifier `findVariables n` returns occurs in `ExtractVariables`, and
when it is not a registered template name it occurs in the result of
`ExtraValFromTemplate`. -/
theorem ExtractVariables_covers_named_templates (compile : Compiler) (text : String)
    (t : Template) (root : Tree) (hc : Template.Parse compile "temp" text = .ok t)
    (ht : t.Tree = some root) (hwf : t.WellFormed) (T : NamedTemplate) (hT : T ∈ t.Templates)
    (tree : Tree) (hTt : T.Tree = some tree) (n : Node) (hn : n ∈ tree.Root) :
    ∃ vs vars xs names, findVariables n = some vs ∧ ExtractVariables t = some vars ∧
      ExtraValFromTemplate compile text = some (.ok xs) ∧
      AnalyzeTmplByTemplate t = .ok names ∧
      ∀ x ∈ vs, x ∈ vars ∧ (x ∉ names → x ∈ xs) := by
  obtain ⟨raw, -, h2, h3, h4⟩ := ExtraValFromTemplate_spec hc ht hwf
  have hn2 : n ∈ t.topNodes := (mem_topNodes ht).2 (Or.inr ⟨T, hT, tree, hTt, hn⟩)
  have hsub : ∀ m ∈ subnodes n, fieldIdent m ≠ some [] := by
    intro m hm
    apply hwf m
    obtain ⟨a, b, hab⟩ := List.append_of_mem hn2
    simp only [Template.allNodes, hab, subnodesOfNodes_append, subnodesOfNodes,
      List.mem_append]
    exact Or.inr (Or.inl hm)
  obtain ⟨vs, hvs⟩ := findVariables_total n hsub
  refine ⟨vs, _, _, _, hvs, h2, h3, rfl, ?_⟩
  intro x hx
  have hraw : x ∈ raw := (h4 x).2 ⟨n, hn2, vs, hvs, hx⟩
  refine ⟨mem_unique.2 hraw, fun hnot => ?_⟩
  rw [mem_sortStrings, mem_RemoveElements, mem_unique]
  exact ⟨hraw, hnot⟩

/-- C4, at the sample text that defines `sub` with body `.X` and includes
it: `X` is collected from the tree of `sub`, and the result is `["X"]`,
which includes `"X"` and excludes `"sub"`. -/
theorem ExtractVariables_covers_named_templates_witness :
    Template.Parse sampleCompiler "temp" srcDefine = .ok tmplDefine ∧
      tmplDefine.WellFormed ∧
      ExtraValFromTemplate sampleCompiler srcDefine = some (.ok ["X"]) ∧
      "X" ∈ ["X"] ∧ "sub" ∉ ["X"] ∧
      ∃ vs vars xs names, findVariables (fieldAction "X") = some vs ∧
        ExtractVariables tmplDefine = some vars ∧
        ExtraValFromTemplate sampleCompiler srcDefine = some (.ok xs) ∧
        AnalyzeTmplByTemplate tmplDefine = .ok names ∧
        ∀ x ∈ vs, x ∈ vars ∧ (x ∉ names → x ∈ xs) :=
  ⟨rfl, by decide,
    by simp +decide [ExtraValFromTemplate, Template.Parse, sampleCompiler, srcABA, srcIf,
      srcDefine, AnalyzeTmplByTemplate, ExtractVariables, treeDefine, treeSub, fieldAction,
      findVariablesNodes, findVariables, findVariablesFromPipe, findVariablesFromCmds,
      findVariablesFromArgs, walkTemplates, walkTemplate, unique, uniqueLoop, RemoveElements,
      sortStrings, String.le_iff_toList_le],
    by decide, by decide,
    ExtractVariables_covers_named_templates sampleCompiler srcDefine tmplDefine treeDefine rfl
      rfl (by decide) ⟨"sub", some treeSub⟩ (by simp [tmplDefine]) treeSub rfl
      (fieldAction "X") (by simp [treeSub])⟩

/-- C5: for every compiled template with a root tree and every
template-inclusion node with name `s` among the top-level nodes of the root
tree or of the tree of a named template: `s` occurs in the result of
`ExtraValFromTemplate` if and only if `s` is not in the Name Set. -/
theorem inclusion_name_in_result_iff (compile : Compiler) (text : String) (t : Template)
    (root : Tree) (hc : Template.Parse compile "temp" text = .ok t) (ht : t.Tree = some root)
    (hwf : t.WellFormed) (s : String) (p : Option PipeNode)
    (hn : Node.Template s p ∈ root.Root ∨
      ∃ tmpl ∈ t.Templates, ∃ tree, tmpl.Tree = some tree ∧ Node.Template s p ∈ tree.Root) :
    ∃ xs names, ExtraValFromTemplate compile text = some (.ok xs) ∧
      AnalyzeTmplByTemplate t = .ok names ∧ (s ∈ xs ↔ s ∉ names) := by
  obtain ⟨raw, -, -, h3, h4⟩ := ExtraValFromTemplate_spec hc ht hwf
  refine ⟨_, _, h3, rfl, ?_⟩
  have hraw : s ∈ raw :=
    (h4 s).2 ⟨.Template s p, (mem_topNodes ht).2 hn, [s], by rw [findVariables], by simp⟩
  rw [mem_sortStrings, mem_RemoveElements, mem_unique]
  exact ⟨fun h => h.2, fun h => ⟨hraw, h⟩⟩

/-- C5, at two sample texts: the inclusion of the undefined template `foo`
surfaces `"foo"` in the result, the inclusion of the defined template `sub`
does not surface `"sub"`. -/
theorem inclusion_name_in_result_iff_witness :
    (Template.Parse sampleCompiler "temp" srcUndefined = .ok tmplUndefined ∧
      tmplUndefined.WellFormed ∧
      ExtraValFromTemplate sampleCompiler srcUndefined = some (.ok ["foo"]) ∧
      ∃ xs names, ExtraValFromTemplate sampleCompiler srcUndefined = some (.ok xs) ∧
        AnalyzeTmplByTemplate tmplUndefined = .ok names ∧ ("foo" ∈ xs ↔ "foo" ∉ names)) ∧
    ∃ xs names, ExtraValFromTemplate sampleCompiler srcDefine = some (.ok xs) ∧
      AnalyzeTmplByTemplate tmplDefine = .ok names ∧ ("sub" ∈ xs ↔ "sub" ∉ names) :=
  ⟨⟨rfl, by decide,
    by simp +decide [ExtraValFromTemplate, Template.Parse, sampleCompiler, srcABA, srcIf,
      srcDefine, srcUndefined, AnalyzeTmplByTemplate, ExtractVariables, treeUndefined,
      findVariablesNodes, findVariables, walkTemplates, walkTemplate, unique, uniqueLoop,
      RemoveElements, sortStrings, String.le_iff_toList_le],
    inclusion_name_in_result_iff sampleCompiler srcUndefined tmplUndefined treeUndefined rfl
      rfl (by decide) "foo" none (Or.inl (by simp [treeUndefined]))⟩,
    inclusion_name_in_result_iff sampleCompiler srcDefine tmplDefine treeDefine rfl
      rfl (by decide) "sub" none (Or.inl (by simp [treeDefine]))⟩

/-- C6: for every pipe (of a compiled tree: every field reference has a
first path segment), `findVariablesFromPipe` returns the reference list of
the spec: the concatenation, over the commands in order and over the
arguments of each command in order, of the first path segment of a field
reference, of the identifiers of a nested pipe, and of nothing for any
other kind of argument. -/
theorem findVariablesFromPipe_refines_spec (p : PipeNode) (hwf : p.WellFormed) :
    findVariablesFromPipe p = some (specPipe p) ∧
    (∀ (a : Bool) (d : List (List String)) (cmds : List CommandNode),
      specPipe (.mk a d cmds) = cmds.flatMap (fun cmd =>
        match cmd with
        | .mk args => args.flatMap specArg)) ∧
    (∀ (v : String) (rest : List String), specArg (.Field (v :: rest)) = [v]) ∧
    (∀ q : PipeNode, q.WellFormed → specArg (.Pipe q) = specPipe q ∧
      findVariablesFromPipe q = some (specPipe q)) ∧
    (∀ arg : Node, fieldIdent arg = none → (∀ q, arg ≠ .Pipe q) → specArg arg = []) := by
  have main : ∀ q : PipeNode, q.WellFormed → findVariablesFromPipe q = some (specPipe q) := by
    intro q hq
    obtain ⟨vs, hvs⟩ := findVariablesFromPipe_total q hq
    rw [hvs, findVariablesFromPipe_sound q vs hvs]
  refine ⟨main p hwf, ?_, ?_, ?_, ?_⟩
  · intro a d cmds
    rw [specPipe, specCmds_eq_flatMap]
  · intro v rest
    simp [specArg]
  · intro q hq
    exact ⟨by rw [specArg], main q hq⟩
  · intro arg h1 h2
    cases arg <;> simp [specArg, fieldIdent] at h1 h2 ⊢

/-- C6, on the pipe `.User.Name (.A | f .B) 1`: the walk returns
`["User", "A", "B"]`, the reference list. -/
theorem findVariablesFromPipe_refines_spec_witness :
    (PipeNode.mk false [] [.mk [.Field ["User", "Name"],
        .Pipe (.mk false [] [.mk [.Field ["A"]], .mk [.Identifier "f", .Field ["B"]]]),
        .Number "1"]]).WellFormed ∧
      findVariablesFromPipe (.mk false [] [.mk [.Field ["User", "Name"],
        .Pipe (.mk false [] [.mk [.Field ["A"]], .mk [.Identifier "f", .Field ["B"]]]),
        .Number "1"]]) = some ["User", "A", "B"] ∧
      specArg (.Field ["User", "Name"]) = ["User"] :=
  ⟨by decide,
    (findVariablesFromPipe_refines_spec _ (by decide)).1.trans (by decide),
    by decide⟩

/-- C7: for every node whose kind has no case in the type switch (none of
Action, Branch, If, With, Range, Template, Pipe), `findVariables` returns
the empty list, and not a panic. -/
theorem findVariables_other_kinds (n : Node) (h : hasCase n = false) :
    findVariables n = some [] := by
  cases n <;> simp [hasCase] at h <;> simp [findVariables]

/-- C7, on a text node, a comment, a variable, a string constant, a list
and a break. -/
theorem findVariables_other_kinds_witness :
    hasCase (.Text "select 1") = false ∧
      findVariables (.Text "select 1") = some [] ∧
      findVariables (.Comment "note") = some [] ∧
      findVariables (.Variable ["$x"]) = some [] ∧
      findVariables (.String "\"a\"" "a") = some [] ∧
      findVariables (.List [fieldAction "A"]) = some [] ∧
      findVariables .Break = some [] :=
  ⟨rfl, findVariables_other_kinds (.Text "select 1") rfl,
    findVariables_other_kinds (.Comment "note") rfl,
    findVariables_other_kinds (.Variable ["$x"]) rfl,
    findVariables_other_kinds (.String "\"a\"" "a") rfl,
    findVariables_other_kinds (.List [fieldAction "A"]) rfl,
    findVariables_other_kinds .Break rfl⟩

/-- C8 as stated fails: the sample text that only includes the undefined
template `foo` has no field reference and no named sub-template definition,
yet the result is `["foo"]`, not the empty list. -/
theorem ExtraValFromTemplate_no_field_counterexample :
    Template.Parse sampleCompiler "temp" srcUndefined = .ok tmplUndefined ∧
      tmplUndefined.NoFieldReference ∧ tmplUndefined.NoSubTemplate ∧
      ExtraValFromTemplate sampleCompiler srcUndefined = some (.ok ["foo"]) ∧
      ExtraValFromTemplate sampleCompiler srcUndefined ≠ some (.ok []) := by
  have h : ExtraValFromTemplate sampleCompiler srcUndefined = some (.ok ["foo"]) := by
    simp +decide [ExtraValFromTemplate, Template.Parse, sampleCompiler, srcABA, srcIf,
      srcDefine, srcUndefined, AnalyzeTmplByTemplate, ExtractVariables, treeUndefined,
      findVariablesNodes, findVariables, walkTemplates, walkTemplate, unique, uniqueLoop,
      RemoveElements, sortStrings, String.le_iff_toList_le]
  refine ⟨rfl, by decide, by decide, h, ?_⟩
  rw [h]
  simp

/-- C8, amended: for every compiled template that contains no field
reference anywhere in its trees, no named sub-template definition, and no
inclusion of a template name that is not registered, `ExtraValFromTemplate`
returns the empty list. -/
theorem ExtraValFromTemplate_empty_of_no_field (compile : Compiler) (text : String)
    (t : Template) (hc : Template.Parse compile "temp" text = .ok t)
    (hf : t.NoFieldReference) (_ : t.NoSubTemplate) (hi : t.InclusionsRegistered) :
    ExtraValFromTemplate compile text = some (.ok []) := by
  rw [ExtraValFromTemplate_eq hc]
  cases ht : t.Tree with
  | none => simp [ExtractVariables, ht, RemoveElements, sortStrings]
  | some root =>
    have hwf : t.WellFormed := fun n hn => by
      rw [hf n hn]
      simp
    obtain ⟨raw, h1, h2, -⟩ := ExtractVariables_spec ht hwf
    rw [h2]
    have hall : ∀ x ∈ unique raw, x ∈ t.Name :: t.Templates.map (·.Name) := by
      intro x hx
      obtain ⟨m, hm, hs⟩ := findVariablesNodes_inclusions t.topNodes hf raw h1 x (mem_unique.1 hx)
      exact hi x (List.mem_filterMap.2 ⟨m, hm, hs⟩)
    have hnil : RemoveElements (unique raw) (t.Name :: t.Templates.map (·.Name)) = [] := by
      rw [RemoveElements, List.filter_eq_nil_iff]
      intro x hx
      simp [hall x hx]
    simp [hnil, sortStrings]

/-- C8 amended, at the sample text with literal text and an inclusion of
the template itself: the result is the empty list. -/
theorem ExtraValFromTemplate_empty_of_no_field_witness :
    Template.Parse sampleCompiler "temp" srcSelf = .ok tmplSelf ∧
      tmplSelf.NoFieldReference ∧ tmplSelf.NoSubTemplate ∧ tmplSelf.InclusionsRegistered ∧
      ExtraValFromTemplate sampleCompiler srcSelf = some (.ok []) :=
  ⟨rfl, by decide, by decide, by decide,
    ExtraValFromTemplate_empty_of_no_field sampleCompiler srcSelf tmplSelf rfl (by decide)
      (by decide) (by decide)⟩

/-- C9: the result of `ExtraValFromTemplate` does not depend on the order
in which `t.Templates()` enumerates the associated templates: two compilers
that differ only in that order give the same outcome; and two raw identifier
lists with the same members (and two name lists with the same members) give
the same final list. -/
theorem ExtraValFromTemplate_order_independent (compile₁ compile₂ : Compiler) (text : String)
    (tree : Option Tree) (tmpls₁ tmpls₂ : List NamedTemplate)
    (h₁ : compile₁ "temp" text = .ok (tree, tmpls₁))
    (h₂ : compile₂ "temp" text = .ok (tree, tmpls₂)) (hp : tmpls₁.Perm tmpls₂) :
    ExtraValFromTemplate compile₁ text = ExtraValFromTemplate compile₂ text ∧
    (∀ xs ys ns ms : List String, (∀ x, x ∈ xs ↔ x ∈ ys) → (∀ x, x ∈ ns ↔ x ∈ ms) →
      sortStrings (RemoveElements (unique xs) ns) =
        sortStrings (RemoveElements (unique ys) ms)) := by
  refine ⟨?_, fun xs ys ns ms h hn => final_congr h hn⟩
  have hn : ∀ x, x ∈ "temp" :: tmpls₁.map (·.Name) ↔ x ∈ "temp" :: tmpls₂.map (·.Name) := by
    intro x
    simp only [List.mem_cons, (hp.map (·.Name)).mem_iff]
  have e1 : Template.Parse compile₁ "temp" text = .ok ⟨"temp", tree, tmpls₁⟩ := by
    simp [Template.Parse, h₁]
  have e2 : Template.Parse compile₂ "temp" text = .ok ⟨"temp", tree, tmpls₂⟩ := by
    simp [Template.Parse, h₂]
  rw [ExtraValFromTemplate_eq e1, ExtraValFromTemplate_eq e2]
  cases tree with
  | none => simp [ExtractVariables, RemoveElements]
  | some root =>
    simp only [ExtractVariables]
    cases findVariablesNodes root.Root with
    | none => rfl
    | some vs =>
      rcases walkTemplates_perm hp with ⟨q1, q2⟩ | ⟨a, b, q1, q2, q3⟩
      · simp only [q1, q2]
      · simp only [q1, q2]
        have hm : ∀ x, x ∈ vs ++ a ↔ x ∈ vs ++ b := by
          intro x
          simp only [List.mem_append, q3 x]
        rw [final_congr hm hn]

/-- C9, at the sample text that defines `sub`: enumerating `sub` before or
after the root template gives the same result `["X"]`. -/
theorem ExtraValFromTemplate_order_independent_witness :
    sampleCompiler "temp" srcDefine =
        .ok (some treeDefine, [⟨"sub", some treeSub⟩, ⟨"temp", some treeDefine⟩]) ∧
      sampleCompilerSwapped "temp" srcDefine =
        .ok (some treeDefine, [⟨"temp", some treeDefine⟩, ⟨"sub", some treeSub⟩]) ∧
      ExtraValFromTemplate sampleCompiler srcDefine =
        ExtraValFromTemplate sampleCompilerSwapped srcDefine :=
  ⟨rfl, rfl,
    (ExtraValFromTemplate_order_independent sampleCompiler sampleCompilerSwapped srcDefine
      (some treeDefine) [⟨"sub", some treeSub⟩, ⟨"temp", some treeDefine⟩]
      [⟨"temp", some treeDefine⟩, ⟨"sub", some treeSub⟩] rfl rfl (List.Perm.swap _ _ _)).1⟩

/-- C10: for every raw identifier list and every name list, what the code
hands to the sorter (`unique` first, then the removal of the names) is the
list of the Filter and Deduplicator contract (each identifier not in the
Name Set and not already kept, in first-seen order), which is also the
filter followed by `unique`. -/
theorem RemoveElements_unique_eq_spec (vars names : List String) :
    RemoveElements (unique vars) names = specFilterDedup vars names ∧
    RemoveElements (unique vars) names = unique (RemoveElements vars names) := by
  have h1 : RemoveElements (unique vars) names = firstOcc (names ++ []) vars := by
    rw [unique_eq, RemoveElements, filter_firstOcc]
  refine ⟨?_, ?_⟩
  · rw [h1, specFilterDedup, specFilterDedupLoop_eq]
    simp
  · rw [h1, unique_eq, RemoveElements, firstOcc_filter]

/-- C11: for every request, `Dialect` returns the MYSQL builder when the
driver is DORIS or MYSQL (the same result for both), the POSTGRES builder
when the driver is POSTGRES, and panics if and only if the driver is none of
the three; no driver outside the three obtains a builder. -/
theorem Dialect_resolution (req : BuilderRequest) :
    (req.Driver = .DRIVER_DORIS ∨ req.Driver = .DRIVER_MYSQL →
      Dialect req = some (xormDialect .MYSQL)) ∧
    (req.Driver = .DRIVER_POSTGRES → Dialect req = some (xormDialect .POSTGRES)) ∧
    (Dialect req = none ↔
      req.Driver ≠ .DRIVER_DORIS ∧ req.Driver ≠ .DRIVER_MYSQL ∧
        req.Driver ≠ .DRIVER_POSTGRES) ∧
    Dialect ⟨.DRIVER_DORIS⟩ = Dialect ⟨.DRIVER_MYSQL⟩ ∧
    xormDialect .MYSQL ≠ xormDialect .POSTGRES := by
  obtain ⟨d⟩ := req
  cases d <;> simp [Dialect, xormDialect]

/-- C12: for every sequence of projection entries, `ExtractSelectAlias`
returns a list of the same length whose element at index `i` is the alias of
a Column variant, the call-name of an Expression variant, the alias of a
CaseWhen variant, and the empty string when entry `i` has no active variant
or the payload of the variant is absent. -/
theorem ExtractSelectAlias_positional (sel : List (Option MixField)) :
    (ExtractSelectAlias sel).length = sel.length ∧
    (∀ (i : Nat) (s : Option MixField), sel[i]? = some s →
      (∀ c, GetMix s = some (.MixField_Column c) →
        (ExtractSelectAlias sel)[i]? = some (Column.GetAlias c)) ∧
      (∀ e, GetMix s = some (.MixField_Expression e) →
        (ExtractSelectAlias sel)[i]? = some (Expression.GetCallAs e)) ∧
      (∀ c, GetMix s = some (.MixField_CaseWhen c) →
        (ExtractSelectAlias sel)[i]? = some (CaseWhen.GetAlias c)) ∧
      (GetMix s = none → (ExtractSelectAlias sel)[i]? = some "")) ∧
    (∀ c : Column, Column.GetAlias (some c) = c.Alias) ∧
    (∀ e : Expression, Expression.GetCallAs (some e) = e.CallAs) ∧
    (∀ c : CaseWhen, CaseWhen.GetAlias (some c) = c.Alias) ∧
    Column.GetAlias none = "" ∧ Expression.GetCallAs none = "" ∧
    CaseWhen.GetAlias none = "" := by
  refine ⟨by simp [ExtractSelectAlias_eq_map], ?_, fun _ => rfl, fun _ => rfl, fun _ => rfl,
    rfl, rfl, rfl⟩
  intro i s hs
  have hi : (ExtractSelectAlias sel)[i]? = some (switchAlias s) := by
    rw [ExtractSelectAlias_eq_map, List.getElem?_map, hs]
    rfl
  rw [hi]
  refine ⟨fun c hc => ?_, fun e he => ?_, fun c hc => ?_, fun hn => ?_⟩
  · simp [switchAlias, GetColumn, hc]
  · simp [switchAlias, GetExpression, he]
  · simp [switchAlias, GetCaseWhen, hc]
  · simp [switchAlias, hn]

/-- C12, on four entries: a column with alias `id`, an expression with
call-name `total`, a case-when with alias `kind`, and an entry without an
active variant. -/
theorem ExtractSelectAlias_positional_witness :
    ExtractSelectAlias [some ⟨some (.MixField_Column (some ⟨"id"⟩))⟩,
        some ⟨some (.MixField_Expression (some ⟨"total"⟩))⟩,
        some ⟨some (.MixField_CaseWhen (some ⟨"kind"⟩))⟩, some ⟨none⟩] =
      ["id", "total", "kind", ""] ∧
    (ExtractSelectAlias [some ⟨some (.MixField_Column (some ⟨"id"⟩))⟩,
        some ⟨some (.MixField_Expression (some ⟨"total"⟩))⟩,
        some ⟨some (.MixField_CaseWhen (some ⟨"kind"⟩))⟩, some ⟨none⟩])[1]? =
      some (Expression.GetCallAs (some ⟨"total"⟩)) :=
  ⟨by decide,
    ((ExtractSelectAlias_positional _).2.1 1
      (some ⟨some (.MixField_Expression (some ⟨"total"⟩))⟩) rfl).2.1 (some ⟨"total"⟩) rfl⟩

/-- C13: the claim (for every sequence of ORDER-BY entries the result has
the length of the sequence, element `i` being the alias of the dependent
projection, one space and the direction) fails on the code at a nil entry:
`ExtractOrderAlias` panics there, reading `o.Order` through the nil pointer,
although the dependent projection is read through the nil-safe getter and
`ExtractSelectAlias` returns `[""]` on a nil entry. The panic occurs exactly
when the sequence holds a nil entry; on every other sequence the result is
as the claim says, and the sample of the spec (alias `name`, direction
`ASC`) yields `name ASC`. -/
theorem ExtractOrderAlias_nil_entry :
    ExtractOrderAlias [none] = none ∧
    GetDependent none = none ∧
    ExtractSelectAlias [GetDependent none] = [""] ∧
    ExtractSelectAlias [none] = [""] ∧
    ExtractOrderAlias [some ⟨some ⟨some (.MixField_Column (some ⟨"name"⟩))⟩, "ASC"⟩, none] =
      none ∧
    (∀ order : List (Option OrderBy), ExtractOrderAlias order = none ↔ none ∈ order) ∧
    (∀ order : List (Option OrderBy), none ∉ order →
      ∃ r, ExtractOrderAlias order = some r ∧ r.length = order.length ∧
        ∀ (i : Nat) (entry : OrderBy), order[i]? = some (some entry) →
          ∃ a, ExtractSelectAlias [GetDependent (some entry)] = [a] ∧
            r[i]? = some (a ++ " " ++ entry.Order)) ∧
    ExtractOrderAlias [some ⟨some ⟨some (.MixField_Column (some ⟨"name"⟩))⟩, "ASC"⟩] =
      some ["name ASC"] := by
  have hpos : ∀ order : List (Option OrderBy), none ∉ order →
      ∃ r, ExtractOrderAlias order = some r ∧ r.length = order.length ∧
        ∀ (i : Nat) (entry : OrderBy), order[i]? = some (some entry) →
          ∃ a, ExtractSelectAlias [GetDependent (some entry)] = [a] ∧
            r[i]? = some (a ++ " " ++ entry.Order) := by
    intro order h
    obtain ⟨entries, rfl⟩ := eq_map_some_of_not_mem order h
    refine ⟨_, by rw [ExtractOrderAlias, ExtractOrderAliasLoop_some], by simp, ?_⟩
    intro i entry hi
    refine ⟨switchAlias entry.Dependent, by simp [ExtractSelectAlias_eq_map, GetDependent], ?_⟩
    rw [List.getElem?_map] at hi
    cases he : entries[i]? with
    | none => simp [he] at hi
    | some e2 =>
      simp only [he, Option.map_some', Option.some.injEq] at hi
      subst hi
      simp [he]
  refine ⟨by decide, rfl, by decide, by decide, by decide, ?_, hpos, by decide⟩
  intro order
  constructor
  · intro h
    by_contra c
    obtain ⟨r, hr, -⟩ := hpos order c
    rw [hr] at h
    cases h
  · intro h
    exact ExtractOrderAliasLoop_none order [] h

/-- C14: for every template text, when the compiler rejects the text with
error `e`, `ExtraValFromTemplate` returns exactly `e` and no identifier
list; when compilation and name collection both succeed (on a well-formed
template), it returns a list and no error. -/
theorem ExtraValFromTemplate_error_propagation (compile : Compiler) (text : String) :
    (∀ e : Error, compile "temp" text = .error e →
      ExtraValFromTemplate compile text = some (.error e)) ∧
    (∀ (t : Template) (names : List String),
      Template.Parse compile "temp" text = .ok t → AnalyzeTmplByTemplate t = .ok names →
      t.WellFormed → ∃ xs, ExtraValFromTemplate compile text = some (.ok xs)) := by
  refine ⟨fun e he => ?_, fun t names hc _ hwf => ?_⟩
  · simp [ExtraValFromTemplate, Template.Parse, he]
  · obtain ⟨vars, hv⟩ := ExtractVariables_total t hwf
    exact ⟨_, by rw [ExtraValFromTemplate_eq hc, hv]⟩

/-- C14, at two sample texts: the unclosed action is rejected and the error
of the compiler comes back unchanged; the text with the actions `.A`, `.B`,
`.A` yields a list. -/
theorem ExtraValFromTemplate_error_propagation_witness :
    sampleCompiler "temp" srcUnclosed = .error "template: temp:1: unclosed action" ∧
      ExtraValFromTemplate sampleCompiler srcUnclosed =
        some (.error "template: temp:1: unclosed action") ∧
      ∃ xs, ExtraValFromTemplate sampleCompiler srcABA = some (.ok xs) :=
  ⟨rfl,
    (ExtraValFromTemplate_error_propagation sampleCompiler srcUnclosed).1 _ rfl,
    (ExtraValFromTemplate_error_propagation sampleCompiler srcABA).2 tmplABA
      ("temp" :: tmplABA.Templates.map (fun x : NamedTemplate => x.Name)) rfl rfl
      (by decide)⟩

/-- C15: for every generic Branch node, `findVariables` returns the
identifiers of the guard pipe, followed by those of every node of the body
list in order, followed by those of every node of the else list in order
when there is one (a panic in any of these walks being a panic of the
whole); so the Branch case walks body and else, which the If case does
not. -/
theorem findVariables_Branch_recurses :
    (∀ (p : PipeNode) (l : List Node) (e : Option (List Node)),
      findVariables (.Branch p l e) =
        concatOpt (findVariablesFromPipe p :: (l.map findVariables ++
          match e with
          | none => []
          | some el => el.map findVariables))) ∧
    (∀ lists : List (List String), concatOpt (lists.map some) = some lists.flatten) ∧
    findVariables (.Branch (.mk false [] [.mk [.Field ["Cond"]]]) [fieldAction "Y"]
      (some [fieldAction "Z"])) = some ["Cond", "Y", "Z"] ∧
    findVariables (.Branch (.mk false [] [.mk [.Field ["Cond"]]]) [fieldAction "Y"] none) =
      some ["Cond", "Y"] ∧
    findVariables (.If (.mk false [] [.mk [.Field ["Cond"]]]) [fieldAction "Y"]
      (some [fieldAction "Z"])) = some ["Cond"] := by
  refine ⟨fun p l e => ?_, concatOpt_map_some, by decide, by decide, by decide⟩
  rw [findVariables, findVariablesNodes_eq, findVariablesElse_eq]
  cases findVariablesFromPipe p with
  | none => simp [concatOpt]
  | some vs =>
    simp only [concatOpt, concatOpt_append]
    cases concatOpt (l.map findVariables) with
    | none => rfl
    | some ws =>
      cases concatOpt (match e with
        | none => []
        | some el => el.map findVariables) with
      | none => rfl
      | some us => simp

/-- C16: for every template with a root tree (and well-formed trees),
`ExtractVariables` returns `unique` of the raw walk (the top-level nodes of
the root tree, then those of every enumerated template): a duplicate-free
list with the members of the raw walk, in the order of their first
occurrence there. For every list, `unique` gives the subsequence of first
occurrences, and applying it twice changes nothing. -/
theorem ExtractVariables_first_occurrences (t : Template) (root : Tree)
    (ht : t.Tree = some root) (hwf : t.WellFormed) :
    (∃ raw, findVariablesNodes (root.Root ++ templateNodes t.Templates) = some raw ∧
      ExtractVariables t = some (unique raw) ∧ (unique raw).Nodup ∧
      (∀ x, x ∈ unique raw ↔ x ∈ raw) ∧
      (unique raw).Pairwise (fun a b => raw.indexOf a < raw.indexOf b)) ∧
    (∀ xs : List String, (unique xs).Nodup ∧ (∀ x, x ∈ unique xs ↔ x ∈ xs) ∧
      (unique xs).Sublist xs ∧
      (unique xs).Pairwise (fun a b => xs.indexOf a < xs.indexOf b) ∧
      unique (unique xs) = unique xs) := by
  have hu : ∀ xs : List String, (unique xs).Pairwise
      (fun a b => xs.indexOf a < xs.indexOf b) := by
    intro xs
    rw [unique_eq]
    exact pairwise_firstOcc [] xs
  refine ⟨?_, fun xs => ⟨nodup_unique xs, fun x => mem_unique, ?_, hu xs,
    unique_idempotent xs⟩⟩
  · obtain ⟨raw, h1, h2, -⟩ := ExtractVariables_spec ht hwf
    refine ⟨raw, ?_, h2, nodup_unique raw, fun x => mem_unique, hu raw⟩
    simpa [Template.topNodes, ht] using h1
  · rw [unique_eq]
    exact sublist_firstOcc [] xs

/-- C16, at the sample text with the actions `.A`, `.B`, `.A`: the raw walk
visits the root tree and then the same tree as an enumerated template,
`["A", "B", "A", "A", "B", "A"]`, and `ExtractVariables` returns
`["A", "B"]`. -/
theorem ExtractVariables_first_occurrences_witness :
    tmplABA.Tree = some treeABA ∧ tmplABA.WellFormed ∧
      findVariablesNodes (treeABA.Root ++ templateNodes tmplABA.Templates) =
        some ["A", "B", "A", "A", "B", "A"] ∧
      ExtractVariables tmplABA = some ["A", "B"] ∧
      unique ["B", "A", "B", "C", "A"] = ["B", "A", "C"] ∧
      ∃ raw, findVariablesNodes (treeABA.Root ++ templateNodes tmplABA.Templates) = some raw ∧
        ExtractVariables tmplABA = some (unique raw) ∧ (unique raw).Nodup ∧
        (∀ x, x ∈ unique raw ↔ x ∈ raw) ∧
        (unique raw).Pairwise (fun a b => raw.indexOf a < raw.indexOf b) :=
  ⟨rfl, by decide, by decide, by decide, by decide,
    (ExtractVariables_first_occurrences tmplABA treeABA rfl (by decide)).1⟩

/-- C17: for every template-inclusion node with name `s` and any argument
pipeline, `findVariables` returns exactly `[s]`; at the sample text that
defines `sub` and includes it with the argument `.Arg`, the result of
`ExtraValFromTemplate` is `["X"]` and does not hold `"Arg"`. -/
theorem findVariables_inclusion_ignores_pipeline :
    (∀ (s : String) (p : Option PipeNode), findVariables (.Template s p) = some [s]) ∧
    Template.Parse sampleCompiler "temp" srcInclusionArg = .ok tmplInclusionArg ∧
    ["Arg"] ∈ tmplInclusionArg.allNodes.filterMap fieldIdent ∧
    ∃ xs, ExtraValFromTemplate sampleCompiler srcInclusionArg = some (.ok xs) ∧
      xs = ["X"] ∧ "Arg" ∉ xs := by
  refine ⟨fun s p => by rw [findVariables], rfl, by decide, ["X"], ?_, rfl, by decide⟩
  have hc : Template.Parse sampleCompiler "temp" srcInclusionArg = .ok tmplInclusionArg := rfl
  have h1 : ExtractVariables tmplInclusionArg = some ["sub", "X"] := by decide
  rw [ExtraValFromTemplate_eq hc, h1]
  simp +decide [RemoveElements, sortStrings, tmplInclusionArg]

/-- C18: for every template whose own tree is absent, `ExtractVariables`
returns the empty list, whatever the associated templates hold: they are not
walked. -/
theorem ExtractVariables_without_root_tree (t : Template) (ht : t.Tree = none) :
    ExtractVariables t = some [] := by
  simp [ExtractVariables, ht]

/-- C18, on a template without a tree that has an associated template `sub`
with the action `.X`: walking `sub` would give `["X"]`, but the result is
empty. -/
theorem ExtractVariables_without_root_tree_witness :
    tmplNoTree.Tree = none ∧ walkTemplates tmplNoTree.Templates = some ["X"] ∧
      ExtractVariables tmplNoTree = some [] :=
  ⟨rfl, by decide, ExtractVariables_without_root_tree tmplNoTree rfl⟩

/-- C19: for every template text that compiles (to a well-formed template),
neither the name `temp` of the root template nor the name of any associated
template occurs in the result of `ExtraValFromTemplate`; so a field whose
root identifier is such a name is lost: at the sample text with the single
action `.temp` the walk collects `temp` and the result is the empty list. -/
theorem ExtraValFromTemplate_drops_template_names :
    (∀ (compile : Compiler) (text : String) (t : Template),
      Template.Parse compile "temp" text = .ok t → t.WellFormed →
      ∃ xs, ExtraValFromTemplate compile text = some (.ok xs) ∧ "temp" ∉ xs ∧
        ∀ tmpl ∈ t.Templates, tmpl.Name ∉ xs) ∧
    Template.Parse sampleCompiler "temp" srcTemp = .ok tmplTemp ∧
    ["temp"] ∈ tmplTemp.allNodes.filterMap fieldIdent ∧
    ExtractVariables tmplTemp = some ["temp"] ∧
    ExtraValFromTemplate sampleCompiler srcTemp = some (.ok []) := by
  refine ⟨?_, rfl, by decide, by decide, ?_⟩
  · intro compile text t hc hwf
    have hname : t.Name = "temp" := by
      simp only [Template.Parse] at hc
      split at hc
      · cases hc
      · cases hc
        rfl
    obtain ⟨vars, hv⟩ := ExtractVariables_total t hwf
    refine ⟨_, by rw [ExtraValFromTemplate_eq hc, hv], ?_, ?_⟩
    · rw [mem_sortStrings, mem_RemoveElements, hname]
      exact fun h => h.2 (List.mem_cons_self _ _)
    · intro tmpl htm
      rw [mem_sortStrings, mem_RemoveElements]
      exact fun h => h.2 (List.mem_cons_of_mem _ (List.mem_map.2 ⟨tmpl, htm, rfl⟩))
  · have hc : Template.Parse sampleCompiler "temp" srcTemp = .ok tmplTemp := rfl
    have h1 : ExtractVariables tmplTemp = some ["temp"] := by decide
    rw [ExtraValFromTemplate_eq hc, h1]
    simp +decide [RemoveElements, sortStrings, tmplTemp]

/-- C19, at the sample text that defines and includes `sub`: the result
holds neither `temp` nor `sub`. -/
theorem ExtraValFromTemplate_drops_template_names_witness :
    ∃ xs, ExtraValFromTemplate sampleCompiler srcDefine = some (.ok xs) ∧ "temp" ∉ xs ∧
      ∀ tmpl ∈ tmplDefine.Templates, tmpl.Name ∉ xs :=
  ExtraValFromTemplate_drops_template_names.1 sampleCompiler srcDefine tmplDefine rfl
    (by decide)

end Facade
